import Mathlib

/-!
Verification development for the arbutus tree library.

The development shallowly embeds the parts of the library that the
verified properties concern:

* the XXH64 hash (the external xxhash dependency), validated below
  against subtree-hash values recorded in the repository's own
  documentation comments;
* the sibling edit-distance computation and the Edit ordering
  (src/edit.rs);
* the node model, the tree builder with its bottom-up subtree hashing
  (src/builder.rs), the tree mutation operations (src/tree.rs), the
  diff/patch engine (src/diff.rs), and the leaf-driven bottom-up
  traversal (src/iterator/leaf.rs).

Machine integers are modelled as Nat reduced modulo 2^64 where the code
uses u64 arithmetic.  Operations that can panic in the source are
modelled with Option or an explicit result type.  Reference-counted
node handles are modelled by trees as values, with patch operations
addressing destination nodes by their unique id (the runtime aliases a
node's cell through handles; with unique ids, locating the node by id
is an equivalent description of the observable tree state).
-/

set_option maxRecDepth 1000000

namespace Arbutus

/-- 2^64, the modulus for 64-bit arithmetic. -/
def M64 : Nat := 18446744073709551616

/-- Addition modulo 2^64. -/
def madd (a b : Nat) : Nat := (a + b) % M64

/-- Multiplication modulo 2^64. -/
def mmul (a b : Nat) : Nat := (a * b) % M64

/-- Left rotation of a 64-bit value. -/
def rotl64 (x r : Nat) : Nat := ((x <<< r) % M64) ||| (x >>> (64 - r))

def prime64a : Nat := 0x9E3779B185EBCA87
def prime64b : Nat := 0xC2B2AE3D27D4EB4F
def prime64c : Nat := 0x165667B19E3779F9
def prime64d : Nat := 0x85EBCA77C2B2AE63
def prime64e : Nat := 0x27D4EB2F165667C5

/-- One accumulator round of XXH64. -/
def xxRound (acc lane : Nat) : Nat :=
  mmul (rotl64 (madd acc (mmul lane prime64b)) 31) prime64a

/-- Merge round of XXH64. -/
def xxMergeRound (h acc : Nat) : Nat :=
  madd (mmul (h ^^^ xxRound 0 acc) prime64a) prime64d

/-- Final avalanche of XXH64. -/
def xxAvalanche (h0 : Nat) : Nat :=
  let h1 := h0 ^^^ (h0 >>> 33)
  let h2 := mmul h1 prime64b
  let h3 := h2 ^^^ (h2 >>> 29)
  let h4 := mmul h3 prime64c
  h4 ^^^ (h4 >>> 32)

/-- Little-endian read of eight bytes. -/
def le8 (b0 b1 b2 b3 b4 b5 b6 b7 : Nat) : Nat :=
  b0 + b1 * 2^8 + b2 * 2^16 + b3 * 2^24 + b4 * 2^32 + b5 * 2^40 + b6 * 2^48 + b7 * 2^56

/-- Little-endian read of four bytes. -/
def le4 (b0 b1 b2 b3 : Nat) : Nat :=
  b0 + b1 * 2^8 + b2 * 2^16 + b3 * 2^24

/-- Byte-at-a-time steps of the XXH64 tail, followed by the avalanche. -/
def xxTail1 : Nat → List Nat → Nat
  | h, [] => xxAvalanche h
  | h, b :: rest => xxTail1 (mmul (rotl64 (h ^^^ mmul b prime64e) 11) prime64a) rest

/-- Four-byte step of the XXH64 tail. -/
def xxTail4 : Nat → List Nat → Nat
  | h, b0 :: b1 :: b2 :: b3 :: rest =>
      xxTail1 (madd (mmul (rotl64 (h ^^^ mmul (le4 b0 b1 b2 b3) prime64a) 23) prime64b) prime64c)
        rest
  | h, l => xxTail1 h l

/-- Eight-byte steps of the XXH64 tail. -/
def xxTail8 : Nat → List Nat → Nat
  | h, b0 :: b1 :: b2 :: b3 :: b4 :: b5 :: b6 :: b7 :: rest =>
      xxTail8 (madd (mmul (rotl64 (h ^^^ xxRound 0 (le8 b0 b1 b2 b3 b4 b5 b6 b7)) 27) prime64a)
        prime64d) rest
  | h, l => xxTail4 h l

/-- The 32-byte stripe loop of XXH64. -/
def xxStripes : Nat → Nat → Nat → Nat → List Nat → Nat × Nat × Nat × Nat × List Nat
  | a1, a2, a3, a4,
    b0 :: b1 :: b2 :: b3 :: b4 :: b5 :: b6 :: b7 ::
    c0 :: c1 :: c2 :: c3 :: c4 :: c5 :: c6 :: c7 ::
    d0 :: d1 :: d2 :: d3 :: d4 :: d5 :: d6 :: d7 ::
    e0 :: e1 :: e2 :: e3 :: e4 :: e5 :: e6 :: e7 :: rest =>
      xxStripes (xxRound a1 (le8 b0 b1 b2 b3 b4 b5 b6 b7))
        (xxRound a2 (le8 c0 c1 c2 c3 c4 c5 c6 c7))
        (xxRound a3 (le8 d0 d1 d2 d3 d4 d5 d6 d7))
        (xxRound a4 (le8 e0 e1 e2 e3 e4 e5 e6 e7)) rest
  | a1, a2, a3, a4, l => (a1, a2, a3, a4, l)

/-- XXH64 of a byte sequence with the given seed.  This models the
external xxhash dependency used by the library through
xxhash_rust::xxh64::Xxh64; the streaming hasher is modelled one-shot
over the accumulated byte stream. -/
def xxh64 (seed : Nat) (input : List Nat) : Nat :=
  let len := input.length
  if 32 ≤ len then
    match xxStripes (madd seed (madd prime64a prime64b)) (madd seed prime64b)
      (seed % M64) ((seed + M64 - prime64a % M64) % M64) input with
    | (a1, a2, a3, a4, rest) =>
      let h0 := madd (madd (madd (rotl64 a1 1) (rotl64 a2 7)) (rotl64 a3 12)) (rotl64 a4 18)
      let h1 := xxMergeRound (xxMergeRound (xxMergeRound (xxMergeRound h0 a1) a2) a3) a4
      xxTail8 (madd h1 len) rest
  else
    xxTail8 (madd (madd seed prime64e) len) input

/-- Little-endian 8-byte encoding of a 64-bit value, as written by the
Hasher write_u64 and write_usize methods. -/
def u64le (n : Nat) : List Nat :=
  [n % 2^8, n / 2^8 % 2^8, n / 2^16 % 2^8, n / 2^24 % 2^8,
   n / 2^32 % 2^8, n / 2^40 % 2^8, n / 2^48 % 2^8, n / 2^56 % 2^8]

/-- UTF-8 encoding of a character. -/
def charUtf8 (c : Char) : List Nat :=
  let n := c.toNat
  if n < 0x80 then [n]
  else if n < 0x800 then [0xC0 ||| (n >>> 6), 0x80 ||| (n &&& 0x3F)]
  else if n < 0x10000 then
    [0xE0 ||| (n >>> 12), 0x80 ||| ((n >>> 6) &&& 0x3F), 0x80 ||| (n &&& 0x3F)]
  else
    [0xF0 ||| (n >>> 18), 0x80 ||| ((n >>> 12) &&& 0x3F),
     0x80 ||| ((n >>> 6) &&& 0x3F), 0x80 ||| (n &&& 0x3F)]

/-- UTF-8 bytes of a string. -/
def strBytes (s : String) : List Nat := (s.data.map charUtf8).flatten

/-- The byte stream the Hash impl for str feeds to a Hasher: the UTF-8
bytes followed by the 0xff terminator. -/
def strHashBytes (s : String) : List Nat := strBytes s ++ [0xff]

/-! ## Sibling edits (src/edit.rs) -/

/-- Vector edit operation (src/edit.rs Edit). -/
inductive Edit where
  | delete (dest_index : Nat)
  | replace (dest_index : Nat) (source_index : Nat)
  | insert (dest_index : Nat) (source_index : Nat)
deriving DecidableEq, Repr

/-- Ordering of Edit operations for in-place modification of a
destination vector (impl Ord for Edit in src/edit.rs): Replace first in
ascending dest order, then Insert descending, then Delete descending. -/
def Edit.cmp : Edit → Edit → Ordering
  | .delete d, .delete o => compare o d
  | .insert d _, .insert o _ => compare o d
  | .replace d _, .replace o _ => compare d o
  | .replace _ _, _ => .lt
  | _, .replace _ _ => .gt
  | .insert _ _, _ => .lt
  | _, .insert _ _ => .gt

/-- The comparison-based total preorder used when sorting a Vec of Edit. -/
def Edit.le (a b : Edit) : Prop := Edit.cmp a b ≠ .gt

instance : DecidableRel Edit.le := fun a b => by
  unfold Edit.le; infer_instance

/-- Sorting a Vec of Edit by the Ord instance (edits.sort() in vec_edits). -/
def sortEdits (l : List Edit) : List Edit := l.insertionSort Edit.le

/-- Structural-fuel form of the edit-distance matrix cell (the fuel is
a termination device of the model; any fuel of at least i + j computes
the cell). -/
def distAux (dest source : List Nat) : Nat → Nat → Nat → Nat
  | _, i, 0 => i
  | _, 0, j + 1 => j + 1
  | 0, _ + 1, _ + 1 => 0
  | n + 1, i + 1, j + 1 =>
    if dest.getD i 0 = source.getD j 0 then distAux dest source n i j
    else 1 + min (distAux dest source n i j) (min (distAux dest source n (i + 1) j)
      (distAux dest source n i (j + 1)))

/-- The edit-distance matrix cell dist i j of vec_edits, comparing the
first i elements of dest against the first j elements of source.
Mirrors the matrix fill loop of src/edit.rs vec_edits. -/
def dist (dest source : List Nat) (i j : Nat) : Nat :=
  distAux dest source (i + j) i j

/-- Structural-fuel form of the backtracking loop. -/
def backtrackAux (dest source : List Nat) : Nat → Nat → Nat → List Edit
  | _, 0, 0 => []
  | 0, _, _ => []
  | n + 1, i, j =>
    match i, j with
    | 0, 0 => []
    | i + 1, 0 => Edit.delete i :: backtrackAux dest source n i 0
    | 0, j + 1 => Edit.insert 0 j :: backtrackAux dest source n 0 j
    | i + 1, j + 1 =>
      if dest.getD i 0 = source.getD j 0 then
        backtrackAux dest source n i j
      else if dist dest source (i + 1) (j + 1) = dist dest source i (j + 1) + 1 then
        Edit.delete i :: backtrackAux dest source n i (j + 1)
      else if dist dest source (i + 1) (j + 1) = dist dest source (i + 1) j + 1 then
        Edit.insert (i + 1) j :: backtrackAux dest source n (i + 1) j
      else
        Edit.replace i j :: backtrackAux dest source n i j

/-- The backtracking loop of vec_edits collecting edits from cell
(i, j) down to (0, 0), mirroring the while loop of src/edit.rs: while
the cell is not (0, 0), either move diagonally on equal hashes, or
record the Delete, Insert or Replace step the distance matrix
explains.  Each step lowers i + j, so i + j bounds the loop. -/
def backtrack (dest source : List Nat) (i j : Nat) : List Edit :=
  backtrackAux dest source (i + j) i j

/-- Find the minimum edits required on dest to make it equal to source
(src/edit.rs vec_edits, instantiated at the u64 hash sequences the
library applies it to). -/
def vec_edits (dest source : List Nat) : List Edit :=
  sortEdits (backtrack dest source dest.length source.length)

/-! ## Node model -/

/-- Position of a node in a tree (crate::iterator NodePosition). -/
structure NodePosition where
  depth : Nat
  index : Nat
  child_index : Nat
deriving DecidableEq, Repr

/-- A tree node (node::arc::Node / node::refcell::Node fields: id, data,
children, position, subtree_hash; the parent back-reference is a
relation derived from the tree shape and is represented by paths). -/
inductive Node where
  | mk (id : Nat) (data : String) (children : Option (List Node))
      (position : Option NodePosition) (subtree_hash : Nat)
deriving Repr

def Node.id : Node → Nat
  | .mk i _ _ _ _ => i

def Node.data : Node → String
  | .mk _ d _ _ _ => d

def Node.children : Node → Option (List Node)
  | .mk _ _ cs _ _ => cs

def Node.position : Node → Option NodePosition
  | .mk _ _ _ p _ => p

def Node.subtree_hash : Node → Nat
  | .mk _ _ _ _ h => h

/-- The children as a list (empty when the node has no children vec). -/
def Node.childrenList (n : Node) : List Node := n.children.getD []

/-- Number of child nodes (TreeNode num_children). -/
def Node.num_children (n : Node) : Nat := (n.children.map List.length).getD 0

def Node.withId (n : Node) (i : Nat) : Node :=
  match n with | .mk _ d cs p h => .mk i d cs p h

def Node.withData (n : Node) (d : String) : Node :=
  match n with | .mk i _ cs p h => .mk i d cs p h

def Node.withChildren (n : Node) (cs : Option (List Node)) : Node :=
  match n with | .mk i d _ p h => .mk i d cs p h

def Node.withHash (n : Node) (h : Nat) : Node :=
  match n with | .mk i d cs p _ => .mk i d cs p h

mutual
/-- Byte stream the node Hash impl writes into a Hasher: num_children,
then each child recursively, then the data (node/refcell.rs Hash impl,
also used by the arc node; validated against the repository's recorded
hash values below). -/
def nodeHashStream : Node → List Nat
  | .mk _ d none _ _ => u64le 0 ++ strHashBytes d
  | .mk _ d (some cs) _ _ => u64le cs.length ++ nodeHashStreamList cs ++ strHashBytes d

def nodeHashStreamList : List Node → List Nat
  | [] => []
  | c :: cs => nodeHashStream c ++ nodeHashStreamList cs
end

/-- Modelled from the spec: the node-local data hash used by the diff
engine (TreeNode::data_xxhash, whose trait definition file is absent
from src/): the XXH64 of the byte stream the data's Hash impl writes. -/
def data_xxhash (d : String) : Nat := xxh64 0 (strHashBytes d)

/-- The bytes the builder writes for the already-computed subtree
hashes of a child list, in sibling order. -/
def childSubtreeWrites (cs : List Node) : List Nat :=
  (cs.map (fun c => u64le c.subtree_hash)).flatten

/-- Recomputation of a node's subtree hash from its current children's
stored subtree hashes and its own node hash stream.  This is the same
digest the builder computes on scope exit. -/
def computeSubtreeHash (n : Node) : Nat :=
  xxh64 0 (childSubtreeWrites n.childrenList ++ nodeHashStream n)

/-! ## Builder (src/builder.rs, driven as in src/test.rs test_tree_node) -/

/-- Raw tree description (test.rs TestNode). -/
inductive TestNode where
  | mk (data : String) (children : List TestNode)

/-- Finalization of one builder scope (the Drop impl for NodeBuilder,
src/builder.rs lines 58-73): a node is assembled from the already-built
children (push_child leaves None when no child was ever pushed), and its
subtree hash is the digest of the per-node hasher, which received, in
sibling order, each finished child's subtree hash (builder.rs line 153)
and then the node's own hash stream (builder.rs line 68). -/
def mkBuiltNode (i : Nat) (d : String) (pos : Option NodePosition) (built : List Node) : Node :=
  let childrenOpt : Option (List Node) := if built.isEmpty then none else some built
  let proto : Node := .mk i d childrenOpt pos 0
  proto.withHash (xxh64 0 (childSubtreeWrites built ++ nodeHashStream proto))

mutual
/-- NodeBuilder::child for one description: allocate an id, compute the
position, build the children recursively (each child's subtree hash is
finalized on its builder's scope exit), then finalize this node.  State
threaded: the id generator counter and the per-depth running index
map. -/
def buildChild (g : Nat) (dj : Nat → Nat) (parentDepth : Nat) (childIdx : Nat) :
    TestNode → Node × Nat × (Nat → Nat)
  | .mk d cs =>
    let id := g
    let depth := parentDepth + 1
    let idx := dj depth
    let dj1 := fun x => if x = depth then idx + 1 else dj x
    match buildChildren (g + 1) dj1 depth 0 cs with
    | (built, g1, dj2) => (mkBuiltNode id d (some ⟨depth, idx, childIdx⟩) built, g1, dj2)

def buildChildren (g : Nat) (dj : Nat → Nat) (parentDepth : Nat) (childIdx : Nat) :
    List TestNode → List Node × Nat × (Nat → Nat)
  | [] => ([], g, dj)
  | c :: cs =>
    match buildChild g dj parentDepth childIdx c with
    | (n, g1, dj1) =>
      match buildChildren g1 dj1 parentDepth (childIdx + 1) cs with
      | (ns, g2, dj2) => (n :: ns, g2, dj2)
end

/-- TreeBuilder::root followed by done, as test.rs test_tree_node drives
it: a root node with data root and the given child descriptions.
Returns the built root and the generator counter the tree keeps. -/
def test_tree_node (descs : List TestNode) : Node × Nat :=
  match buildChildren 1 (fun _ => 0) 0 0 descs with
  | (built, g1, _) => (mkBuiltNode 0 "root" (some ⟨0, 0, 0⟩) built, g1)

/-! ## Node trait operations (src/node.rs) -/

/-- Node::insert_child (src/node.rs lines 49-63): insert at an index no
greater than the length; an index beyond the length is logged and
refused with None; a node without a children vec yields None. -/
def Node.insert_child (n : Node) (new : Node) (index : Nat) : Node × Option Unit :=
  match n.children with
  | none => (n, none)
  | some cs =>
    if index ≤ cs.length then (n.withChildren (some (cs.insertIdx index new)), some ())
    else (n, none)

/-- TreeNodeRefCell::remove_child_index (src/node.rs lines 261-265):
children.borrow_mut().remove(index); Vec::remove panics when the index
is out of bounds, modelled as none.  With no children vec the body is
skipped. -/
def TreeNodeRefCell.remove_child_index {α : Type} (children : Option (List α)) (index : Nat) :
    Option (Option (List α)) :=
  match children with
  | none => some none
  | some cs => if index < cs.length then some (some (cs.eraseIdx index)) else none

/-- Modelled from the spec: TreeNode::remove_child_index (the trait
definition file is absent from src/); remove_child_index(index) returns
the removed handle, and an out-of-bounds index is a logged no-op: the
caller Tree::remove_child warns when it gets None back. -/
def Node.remove_child_index (n : Node) (index : Nat) : Node × Option Node :=
  match n.children with
  | none => (n, none)
  | some cs =>
    match cs.get? index with
    | none => (n, none)
    | some c => (n.withChildren (some (cs.eraseIdx index)), some c)

/-! ## Tree operations (src/tree.rs) -/

mutual
/-- Modelled from the spec: fresh-id assignment over a whole subtree in
the order of for_each_mut (a pre-order walk, as the NodeRef for_each
iterators are), used by Tree::insert_subtree. -/
def freshIds (g : Nat) : Node → Node × Nat
  | .mk _ d none p h => (.mk g d none p h, g + 1)
  | .mk _ d (some cs) p h =>
    match freshIdsList (g + 1) cs with
    | (cs', g') => (.mk g d (some cs') p h, g')

def freshIdsList (g : Nat) : List Node → List Node × Nat
  | [] => ([], g)
  | c :: cs =>
    match freshIds g c with
    | (c', g1) =>
      match freshIdsList g1 cs with
      | (cs', g2) => (c' :: cs', g2)
end

/-- Assign sequential fresh ids to the top level of a node list, as the
for loop in Tree::set_children does. -/
def freshTopIds (g : Nat) : List Node → List Node × Nat
  | [] => ([], g)
  | c :: cs =>
    match freshTopIds (g + 1) cs with
    | (cs', g') => (c.withId g :: cs', g')

/-- Tree::set_children (src/tree.rs lines 266-292): each child being
added gets a newly generated id (top level only) and its parent set;
the existing children are taken and replaced by the new list. -/
def Tree.set_children (g : Nat) (parent : Node) (children : List Node) : Node × Nat :=
  match freshTopIds g children with
  | (children', g') => (parent.withChildren (some children'), g')

/-- Tree::replace_child (src/tree.rs lines 295-312): the replacement
node gets a fresh id, each of its direct children gets a fresh id, and
it replaces the child at the given index.  The child slot update models
TreeNode::replace_child (absent from src/; per the spec an index beyond
the list is a logged no-op). -/
def Tree.replace_child (g : Nat) (parent : Node) (index : Nat) (new : Node) : Node × Nat :=
  let new1 := new.withId g
  match new1.children with
  | none =>
    (parent.withChildren ((parent.children).map (fun cs => cs.set index new1)), g + 1)
  | some directs =>
    match freshTopIds (g + 1) directs with
    | (directs', g') =>
      let new2 := new1.withChildren (some directs')
      (parent.withChildren ((parent.children).map (fun cs => cs.set index new2)), g')

/-- Tree::insert_subtree (src/tree.rs lines 350-375): every node of the
subtree gets a fresh id via for_each_mut, then the subtree is inserted
as a child of the parent at the index (via Node::insert_child, whose
refusal is ignored by the source). -/
def Tree.insert_subtree (g : Nat) (parent : Node) (index : Nat) (subtree : Node) : Node × Nat :=
  match freshIds g subtree with
  | (subtree', g') => ((parent.insert_child subtree' index).1, g')

/-- Tree::remove_child (src/tree.rs lines 233-249): remove the child at
the index, warning (no-op) when absent. -/
def Tree.remove_child (parent : Node) (index : Nat) : Node × Option Node :=
  parent.remove_child_index index

/-- Tree::remove_children (src/tree.rs lines 252-264): take_children
leaves None behind. -/
def Tree.remove_children (parent : Node) : Node :=
  parent.withChildren none

/-- Tree::replace_node (src/tree.rs lines 326-329): assign the
destination node's data from the source node's data; nothing else. -/
def Tree.replace_node (dest source : Node) : Node :=
  dest.withData source.data

/-! ## Locating destination nodes by id

Patch operations hold handles aliasing nodes of the live destination
tree; with unique ids, the aliased node is the tree node carrying that
id, so the value model applies the mutation at the id.  A handle whose
node has been detached from the tree no longer influences the tree, and
correspondingly an id with no match leaves the tree value unchanged. -/

mutual
def mapAtId (target : Nat) (f : Node → Node) : Node → Node × Bool
  | .mk i d cs p h =>
    if i = target then (f (.mk i d cs p h), true)
    else
      match cs with
      | none => (.mk i d none p h, false)
      | some l =>
        match mapAtIdList target f l with
        | (l', found) => (.mk i d (some l') p h, found)

def mapAtIdList (target : Nat) (f : Node → Node) : List Node → List Node × Bool
  | [] => ([], false)
  | c :: rest =>
    match mapAtId target f c with
    | (c', true) => (c' :: rest, true)
    | (_, false) =>
      match mapAtIdList target f rest with
      | (rest', found) => (c :: rest', found)
end

mutual
/-- Modelled from the spec: crate::hash::update_subtree_hash (absent
from src/), called by TreePatch::patch_tree after every operation:
re-derive a mutated node's subtree hash from its current children and
propagate the recomputation up through every ancestor to the root. -/
def update_subtree_hash (target : Nat) : Node → Node × Bool
  | .mk i d cs p h =>
    if i = target then
      let n : Node := .mk i d cs p h
      (n.withHash (computeSubtreeHash n), true)
    else
      match cs with
      | none => (.mk i d none p h, false)
      | some l =>
        match updateSubtreeHashList target l with
        | (l', true) =>
          let n : Node := .mk i d (some l') p h
          (n.withHash (computeSubtreeHash n), true)
        | (l', false) => (.mk i d (some l') p h, false)

def updateSubtreeHashList (target : Nat) : List Node → List Node × Bool
  | [] => ([], false)
  | c :: rest =>
    match update_subtree_hash target c with
    | (c', true) => (c' :: rest, true)
    | (_, false) =>
      match updateSubtreeHashList target rest with
      | (rest', found) => (c :: rest', found)
end

/-! ## Diff and patch (src/diff.rs) -/

/-- TreePatchOperation (src/diff.rs lines 11-22).  Destination handles
are represented by node ids, source handles by subtree snapshots. -/
inductive TreePatchOperation where
  | insertChild (dest : Nat) (index : Nat) (source : Node)
  | deleteChild (dest : Nat) (index : Nat)
  | replaceChild (dest : Nat) (index : Nat) (source : Node)
  | removeChildren (dest : Nat)
  | setChildren (dest : Nat) (nodes : List Node)
  | replaceNode (dest : Nat) (source : Node)
deriving Repr

def TreePatchOperation.destId : TreePatchOperation → Nat
  | .insertChild d _ _ => d
  | .deleteChild d _ => d
  | .replaceChild d _ _ => d
  | .removeChildren d => d
  | .setChildren d _ => d
  | .replaceNode d _ => d

/-- Constructor tag of a patch operation, for stating concrete runs. -/
inductive OpKind where
  | insertChildK | deleteChildK | replaceChildK | removeChildrenK | setChildrenK | replaceNodeK
deriving DecidableEq, Repr

def TreePatchOperation.kind : TreePatchOperation → OpKind
  | .insertChild _ _ _ => .insertChildK
  | .deleteChild _ _ => .deleteChildK
  | .replaceChild _ _ _ => .replaceChildK
  | .removeChildren _ => .removeChildrenK
  | .setChildren _ _ => .setChildrenK
  | .replaceNode _ _ => .replaceNodeK

/-- One patch operation applied to the destination tree, followed by the
update_subtree_hash call of TreePatch::patch_tree (src/diff.rs lines
44-89).  The tree's id generator counter is threaded for the operations
that materialize nodes. -/
def applyOp (t : Node) (g : Nat) : TreePatchOperation → Node × Nat
  | .insertChild dest index source =>
    match freshIds g source with
    | (source', g') =>
      ((update_subtree_hash dest ((mapAtId dest
        (fun n => (n.insert_child source' index).1) t).1)).1, g')
  | .deleteChild dest index =>
    ((update_subtree_hash dest ((mapAtId dest
      (fun n => (Tree.remove_child n index).1) t).1)).1, g)
  | .replaceChild dest index source =>
    -- fresh ids for the replacement and its direct children are drawn
    -- from the tree generator exactly as Tree::replace_child draws them
    let step := fun n => (Tree.replace_child g n index source).1
    let g' := (Tree.replace_child g (Node.mk 0 "" (some []) none 0) index source).2
    ((update_subtree_hash dest ((mapAtId dest step t).1)).1, g')
  | .removeChildren dest =>
    ((update_subtree_hash dest ((mapAtId dest Tree.remove_children t).1)).1, g)
  | .setChildren dest nodes =>
    match freshTopIds g nodes with
    | (nodes', g') =>
      ((update_subtree_hash dest ((mapAtId dest
        (fun n => n.withChildren (some nodes')) t).1)).1, g')
  | .replaceNode dest source =>
    ((update_subtree_hash dest ((mapAtId dest
      (fun n => Tree.replace_node n source) t).1)).1, g)

/-- TreePatch::patch_tree: apply the operations in order. -/
def patch_tree (ops : List TreePatchOperation) (t : Node) (g : Nat) : Node × Nat :=
  ops.foldl (fun (s : Node × Nat) op => applyOp s.1 s.2 op) (t, g)

/-- Node lookup along a path of child indices from a root. -/
def nodeAtPath : Node → List Nat → Option Node
  | t, [] => some t
  | t, i :: rest =>
    match t.children with
    | none => none
    | some cs =>
      match cs.get? i with
      | none => none
      | some c => nodeAtPath c rest

/-- TreeDiff::diff_children (src/diff.rs lines 243-294): run vec_edits
over the two ordered child subtree-hash lists and translate each edit;
the children() unwraps are modelled by the none case. -/
def diff_children (dest source : Node) : Option (List TreePatchOperation) :=
  match dest.children, source.children with
  | some dcs, some scs =>
    let dest_child_hashes := dcs.map Node.subtree_hash
    let source_child_hashes := scs.map Node.subtree_hash
    let edits := vec_edits dest_child_hashes source_child_hashes
    some (edits.map (fun e =>
      match e with
      | .delete di => .deleteChild dest.id di
      | .replace di si => .replaceChild dest.id di (scs.getD si (Node.mk 0 "" none none 0))
      | .insert di si => .insertChild dest.id di (scs.getD si (Node.mk 0 "" none none 0))))
  | _, _ => none

/-- Result of running the diff: a patch, a panic (an unwrap of a missing
parent or child list), or fuel exhaustion of the model. -/
inductive DiffOut where
  | patch (ops : List TreePatchOperation)
  | panicked
  | outOfFuel
deriving Repr

def DiffOut.isPanicked : DiffOut → Bool
  | .panicked => true
  | _ => false

/-- The same-length pairwise child scan of TreeDiff::diff (src/diff.rs
lines 192-229): for each mismatched child pair, either detect that the
source child's subtree hash equals the dest node's own subtree hash
(move-by-wrapping: emit SetChildren of all source children plus
ReplaceNode), or push the pair for further comparison. -/
def pairScan (dhash : Nat) (dest source : Node) (scs : List Node)
    (dp sp : List Nat) : List (Node × Node) → Nat →
    List TreePatchOperation × List (List Nat × List Nat)
  | [], _ => ([], [])
  | (dc, sc) :: rest, i =>
    match pairScan dhash dest source scs dp sp rest (i + 1) with
    | (ops, prs) =>
      if dc.subtree_hash ≠ sc.subtree_hash then
        if sc.subtree_hash = dhash then
          (.setChildren dest.id scs :: .replaceNode dest.id source :: ops, prs)
        else
          (ops, (dp ++ [i], sp ++ [i]) :: prs)
      else (ops, prs)

/-- The work-stack loop of TreeDiff::diff (src/diff.rs lines 111-241).
Stack entries are paths of the pending dest/source nodes (the source
pushes the two node handles onto two parallel stacks); the head of the
list is the top of the stack. -/
def diffGo (destRoot sourceRoot : Node) :
    Nat → List (List Nat × List Nat) → List TreePatchOperation → DiffOut
  | 0, _, _ => .outOfFuel
  | _ + 1, [], acc => .patch acc
  | fuel + 1, (dp, sp) :: stack, acc =>
    match nodeAtPath destRoot dp, nodeAtPath sourceRoot sp with
    | some dest, some source =>
      let dhash := dest.subtree_hash
      let shash := source.subtree_hash
      if dhash = shash then diffGo destRoot sourceRoot fuel stack acc
      else
        let acc1 := if data_xxhash source.data ≠ data_xxhash dest.data then
          acc ++ [.replaceNode dest.id source] else acc
        match dest.children, source.children with
        | none, none =>
          -- leaf against leaf: diff the parents; parent().unwrap()
          -- panics when a node has no parent
          if dp.isEmpty ∨ sp.isEmpty then .panicked
          else
            match nodeAtPath destRoot dp.dropLast, nodeAtPath sourceRoot sp.dropLast with
            | some dparent, some sparent =>
              match diff_children dparent sparent with
              | some ops => diffGo destRoot sourceRoot fuel stack (acc1 ++ ops)
              | none => .panicked
            | _, _ => .panicked
        | none, some scs =>
          diffGo destRoot sourceRoot fuel stack
            (acc1 ++ [.setChildren dest.id scs, .replaceNode dest.id source])
        | some _, none =>
          diffGo destRoot sourceRoot fuel stack (acc1 ++ [.removeChildren dest.id])
        | some dcs, some scs =>
          if dcs.map Node.subtree_hash = scs.map Node.subtree_hash then
            diffGo destRoot sourceRoot fuel stack acc1
          else if dcs.length = scs.length then
            match pairScan dhash dest source scs dp sp (dcs.zip scs) 0 with
            | (ops2, pairs) =>
              diffGo destRoot sourceRoot fuel (pairs.reverse ++ stack) (acc1 ++ ops2)
          else
            match diff_children dest source with
            | some ops => diffGo destRoot sourceRoot fuel stack (acc1 ++ ops)
            | none => .panicked
    | _, _ => .panicked

/-- TreeDiff::new(dest, source).diff(): the loop seeded with the two
roots. -/
def diff (fuel : Nat) (destRoot sourceRoot : Node) : DiffOut :=
  diffGo destRoot sourceRoot fuel [([], [])] []

/-! ## Tree collections -/

mutual
/-- All node ids of a tree, in pre-order. -/
def allIds : Node → List Nat
  | .mk i _ none _ _ => [i]
  | .mk i _ (some cs) _ _ => i :: allIdsList cs

def allIdsList : List Node → List Nat
  | [] => []
  | c :: cs => allIds c ++ allIdsList cs
end

mutual
/-- Number of nodes of a tree. -/
def treeSize : Node → Nat
  | .mk _ _ none _ _ => 1
  | .mk _ _ (some cs) _ _ => 1 + treeSizeList cs

def treeSizeList : List Node → Nat
  | [] => 0
  | c :: cs => treeSize c + treeSizeList cs
end

mutual
/-- All paths of a tree below a prefix, in pre-order. -/
def allPathsFrom (p : List Nat) : Node → List (List Nat)
  | .mk _ _ none _ _ => [p]
  | .mk _ _ (some cs) _ _ => p :: allPathsFromList p 0 cs

def allPathsFromList (p : List Nat) (i : Nat) : List Node → List (List Nat)
  | [] => []
  | c :: cs => allPathsFrom (p ++ [i]) c ++ allPathsFromList p (i + 1) cs
end

def allPaths (t : Node) : List (List Nat) := allPathsFrom [] t

mutual
/-- Paths of the nodes IndexedTree::from_tree collects as leaves
(children().is_none()), in the pre-order the iterator yields. -/
def leafPathsFrom (p : List Nat) : Node → List (List Nat)
  | .mk _ _ none _ _ => [p]
  | .mk _ _ (some cs) _ _ => leafPathsFromList p 0 cs

def leafPathsFromList (p : List Nat) (i : Nat) : List Node → List (List Nat)
  | [] => []
  | c :: cs => leafPathsFrom (p ++ [i]) c ++ leafPathsFromList p (i + 1) cs
end

def leafPaths (t : Node) : List (List Nat) := leafPathsFrom [] t

/-! ## The leaf-driven bottom-up traversal (src/iterator/leaf.rs) -/

/-- Id of the node at a path (used for the sets the iterator keys by
node id). -/
def idAt (t : Node) (p : List Nat) : Nat := ((nodeAtPath t p).map Node.id).getD 0

/-- Expected child count of the node at a path. -/
def numChildrenAt (t : Node) (p : List Nat) : Nat :=
  ((nodeAtPath t p).map Node.num_children).getD 0

/-- State of LeafIter: the visited id set, the per-parent visited
children sets, the current-depth queue and the next-depth queue.  Queue
entries are node paths (the runtime holds node handles; the path
identifies the same node). -/
structure LeafIterState where
  visited : List Nat
  childrenVisited : Nat → List Nat
  queue : List (List Nat)
  next : List (List Nat)

/-- HashSet-style insert. -/
def insertSet (x : Nat) (l : List Nat) : List Nat := if x ∈ l then l else x :: l

/-- LeafIter::new: reverse the supplied leaves, mark them visited, seed
the queue with them. -/
def LeafIter.new (t : Node) (leaves : List (List Nat)) : LeafIterState :=
  let rev := leaves.reverse
  { visited := rev.map (idAt t)
    childrenVisited := fun _ => []
    queue := rev
    next := [] }

/-- LeafIter::pop_next: swap the next queue in when the current one is
empty and the next one is not, then pop the front. -/
def popNext (s : LeafIterState) : Option (List Nat × LeafIterState) :=
  let s1 := if s.queue.isEmpty ∧ ¬ s.next.isEmpty then
    { s with queue := s.next, next := [] } else s
  match s1.queue with
  | [] => none
  | p :: rest => some (p, { s1 with queue := rest })

/-- LeafIter::defer_node: swap the queues when the current one is empty,
then push the node onto the next queue. -/
def deferNode (s : LeafIterState) (p : List Nat) : LeafIterState :=
  let s1 := if s.queue.isEmpty then { s with queue := s.next, next := [] } else s
  { s1 with next := s1.next ++ [p] }

/-- LeafIter::mark_child_visited. -/
def markChildVisited (s : LeafIterState) (parentId childId : Nat) : LeafIterState :=
  { s with childrenVisited := fun q =>
      if q = parentId then insertSet childId (s.childrenVisited parentId)
      else s.childrenVisited q }

/-- The loop body of LeafIter::for_each (src/iterator/leaf.rs lines
68-110), with the visitor recorded as the sequence of visited node ids.
Fuel exhaustion of the model returns none. -/
def forEachGo (t : Node) : Nat → LeafIterState → List Nat → Option (List Nat)
  | 0, _, _ => none
  | fuel + 1, s, acc =>
    match popNext s with
    | none => some acc
    | some (p, s1) =>
      let nid := idAt t p
      let expected := numChildrenAt t p
      let haveCount := (s1.childrenVisited nid).length
      if expected ≠ haveCount then forEachGo t fuel (deferNode s1 p) acc
      else
        let acc' := acc ++ [nid]
        if p.isEmpty then forEachGo t fuel s1 acc'
        else
          let pp := p.dropLast
          let pid := idAt t pp
          let s2 := markChildVisited s1 pid nid
          let s3 := if pid ∈ s2.visited then s2
            else { s2 with visited := pid :: s2.visited, next := s2.next ++ [pp] }
          forEachGo t fuel s3 acc'

/-- IndexedTree::leaf_iter().for_each(..): the traversal seeded with the
tree's leaf set, run with the given fuel. -/
def LeafIter.for_each (t : Node) (fuel : Nat) : Option (List Nat) :=
  forEachGo t fuel (LeafIter.new t (leafPaths t)) []

/-! ## Observable signatures of patch operations

Equality of whole node snapshots is not needed to pin down a concrete
diff run: an operation is described by its constructor, its destination
id, its index, and the subtree hashes and data of its payload nodes. -/

structure OpSig where
  kind : OpKind
  dest : Nat
  index : Option Nat
  payloadHashes : List Nat
  payloadData : List String
deriving DecidableEq, Repr

def TreePatchOperation.sig : TreePatchOperation → OpSig
  | .insertChild d i s => ⟨.insertChildK, d, some i, [s.subtree_hash], [s.data]⟩
  | .deleteChild d i => ⟨.deleteChildK, d, some i, [], []⟩
  | .replaceChild d i s => ⟨.replaceChildK, d, some i, [s.subtree_hash], [s.data]⟩
  | .removeChildren d => ⟨.removeChildrenK, d, none, [], []⟩
  | .setChildren d ns => ⟨.setChildrenK, d, none, ns.map Node.subtree_hash, ns.map Node.data⟩
  | .replaceNode d s => ⟨.replaceNodeK, d, none, [s.subtree_hash], [s.data]⟩

/-! ## Concrete inputs used by the verified scenarios -/

/-- Shorthand for a childless description. -/
def leafD (d : String) : TestNode := .mk d []

/-- TreeBuilder::root with arbitrary root data, then done. -/
def build_root (d : String) (descs : List TestNode) : Node × Nat :=
  match buildChildren 1 (fun _ => 0) 0 0 descs with
  | (built, g1, _) => (mkBuiltNode 0 d (some ⟨0, 0, 0⟩) built, g1)

/-- The operations of a diff run that produced a patch. -/
def diffOps : DiffOut → List TreePatchOperation
  | .patch ops => ops
  | _ => []

mutual
/-- All nodes of a tree, in pre-order. -/
def treeNodes : Node → List Node
  | .mk i d none p h => [.mk i d none p h]
  | .mk i d (some cs) p h => .mk i d (some cs) p h :: treeNodesList cs

def treeNodesList : List Node → List Node
  | [] => []
  | c :: cs => treeNodes c ++ treeNodesList cs
end

/-- The dest tree of the move-by-wrapping scenario:
root over a over 1 over x. -/
def destWrapTree : Node := (test_tree_node [.mk "a" [.mk "1" [leafD "x"]]]).1

/-- The source tree of the move-by-wrapping scenario: a wrapper b
inserted between a and the unchanged subtree 1 over x. -/
def sourceWrapTree : Node := (test_tree_node [.mk "a" [.mk "b" [.mk "1" [leafD "x"]]]]).1

/-- The source node b, as a subtree snapshot. -/
def wrapSourceB : Node := (nodeAtPath sourceWrapTree [0, 0]).getD (Node.mk 0 "" none none 0)

/-- Round-trip failing input, destination: root with leaf children
a, b, c (with the generator counter the tree keeps). -/
def destSeqTree : Node × Nat := test_tree_node [leafD "a", leafD "b", leafD "c"]

/-- Round-trip failing input, source: root with leaf children d, a. -/
def sourceSeqTree : Node × Nat := test_tree_node [leafD "d", leafD "a"]

/-- The source child d, as a subtree snapshot. -/
def seqSourceD : Node := (nodeAtPath sourceSeqTree.1 [0]).getD (Node.mk 0 "" none none 0)

/-- A source-tree child carrying id 50 whose own child carries id 51. -/
def srcChild : Node := .mk 50 "c" (some [.mk 51 "g" none none 0]) none 0

/-- A destination parent node with an empty children vec. -/
def parentP : Node := .mk 0 "p" (some []) none 0

/-- Class rank of an edit: Replace sorts before Insert before Delete. -/
def Edit.classRank : Edit → Nat
  | .replace _ _ => 0
  | .insert _ _ => 1
  | .delete _ => 2

def Edit.destIndex : Edit → Nat
  | .delete d => d
  | .replace d _ => d
  | .insert d _ => d

def Edit.isIns : Edit → Bool
  | .insert _ _ => true
  | _ => false

def Edit.isDel : Edit → Bool
  | .delete _ => true
  | _ => false

/-- The out-of-order edit vector of the edit_order test in
src/edit.rs. -/
def editOrderVec : List Edit :=
  [.insert 1 0, .delete 0, .replace 3 0, .replace 1 0, .delete 1, .insert 0 0]

/-- Dest tree of the C10 scenario: a single childless root. -/
def destLeafTree : Node := (build_root "a" []).1

/-- Source tree of the C10 scenario: a single childless root with
different data. -/
def sourceLeafTree : Node := (build_root "b" []).1


/-! ## Leaf traversal invariant machinery (C8) -/

/-- Whether a node avoids the degenerate empty children vec (builders
never produce children = some []). -/
def noEmptyChildrenB (q : Node) : Bool :=
  match q.children with
  | some [] => false
  | _ => true

structure LeafInv (t : Node) (s : LeafIterState) (acc : List Nat) : Prop where
  validQ : ∀ p ∈ s.queue ++ s.next, ∃ q, nodeAtPath t p = some q
  nodupIds : (acc ++ (s.queue ++ s.next).map (idAt t)).Nodup
  visitedIff : ∀ x, x ∈ s.visited ↔ x ∈ acc ∨ x ∈ (s.queue ++ s.next).map (idAt t)
  calledTree : ∀ x ∈ acc, ∃ p q, nodeAtPath t p = some q ∧ q.id = x
  cvSpec : ∀ y x, x ∈ s.childrenVisited y ↔
      (x ∈ acc ∧ ∃ p q i c, nodeAtPath t p = some q ∧ q.id = y ∧
        q.childrenList.get? i = some c ∧ c.id = x)
  cvNodup : ∀ y, (s.childrenVisited y).Nodup
  ordering : ∀ i (h : i < acc.length) p q, nodeAtPath t p = some q →
      q.id = acc.get ⟨i, h⟩ → ∀ c ∈ q.childrenList, c.id ∈ acc.take i
  reach : ∀ p q, nodeAtPath t p = some q → q.id ∉ s.visited →
      ∃ pw, pw ∈ s.queue ++ s.next ∧ p <+: pw ∧ p.length < pw.length

/-- Whether the node at a queued path has all its children resolved
(the negation of the defer condition of the loop). -/
def readyB (t : Node) (s : LeafIterState) (p : List Nat) : Bool :=
  numChildrenAt t p == (s.childrenVisited (idAt t p)).length

/-- Termination measure of the for_each loop: calls remaining weighted
by the tree size, plus the queue position of the first ready node. -/
def leafMeasure (t : Node) (s : LeafIterState) (acc : List Nat) : Nat :=
  (treeSize t - acc.length) * (treeSize t + 1) +
    (s.queue ++ s.next).findIdx (readyB t s)

/-- The concrete tree used to witness the traversal theorem: a root
with two leaf children. -/
def leafWitnessTree : Node :=
  Node.mk 0 "r" (some [Node.mk 1 "a" none none 0, Node.mk 2 "b" none none 0]) none 0

/-! # Theorems -/

/-- The hash model reproduces, bit for bit, the subtree hashes the
repository records in the doc comment of the move_subtree test
(src/diff.rs lines 446-460) for both trees of that scenario. -/
theorem model_matches_recorded_hashes :
    destWrapTree.subtree_hash = 0x522555CA2FC30738 ∧
    (nodeAtPath destWrapTree [0]).map Node.subtree_hash = some 0x3C45C5486A7CC2E5 ∧
    (nodeAtPath destWrapTree [0, 0]).map Node.subtree_hash = some 0x2AD65604E372F4A4 ∧
    (nodeAtPath destWrapTree [0, 0, 0]).map Node.subtree_hash = some 0xF9F30DD8B72F28BA ∧
    sourceWrapTree.subtree_hash = 0xE86FA358F4D2D5D6 ∧
    (nodeAtPath sourceWrapTree [0]).map Node.subtree_hash = some 0x59B2061BD36A059F ∧
    (nodeAtPath sourceWrapTree [0, 0]).map Node.subtree_hash = some 0x634ACF58B06566AA := by
  decide

/-- C9: Tree::replace_node assigns only the destination node's data
payload from the source node; the identity, children list, position and
cached subtree hash of the destination node are unchanged (and with it
the tree structure around the node, hence its parent link). -/
theorem replace_node_replaces_data_only (dest source : Node) :
    (Tree.replace_node dest source).data = source.data ∧
    (Tree.replace_node dest source).id = dest.id ∧
    (Tree.replace_node dest source).children = dest.children ∧
    (Tree.replace_node dest source).position = dest.position ∧
    (Tree.replace_node dest source).subtree_hash = dest.subtree_hash := by
  cases dest
  cases source
  simp [Tree.replace_node, Node.withData, Node.data, Node.id, Node.children,
    Node.position, Node.subtree_hash]

/-- C7 counterexample: removing a child at an out-of-bounds index is
not a no-op leaving the children list unchanged: Vec::remove in
TreeNodeRefCell::remove_child_index panics (modelled as none). -/
theorem remove_child_oob_counterexample :
    TreeNodeRefCell.remove_child_index (α := Nat) (some [7]) 5 = none ∧
    (none : Option (Option (List Nat))) ≠ some (some [7]) := by
  decide

/-- C7 amended: inserting at an index greater than the children length
is a logged no-op returning None and leaves the node unchanged; removing
at an out-of-bounds index panics (it is not a no-op), except when the
node has no children vec at all, where the remove body is skipped. -/
theorem insert_remove_bounds_behavior :
    (∀ (n new : Node) (index : Nat), n.num_children < index →
      n.insert_child new index = (n, none)) ∧
    (∀ (cs : List Nat) (index : Nat), cs.length ≤ index →
      TreeNodeRefCell.remove_child_index (some cs) index = none) ∧
    (∀ index : Nat, TreeNodeRefCell.remove_child_index (α := Nat) none index = some none) := by
  refine ⟨?_, ?_, ?_⟩
  · intro n new index h
    match hn : n.children with
    | none => simp [Node.insert_child, hn]
    | some cs =>
      have hlen : n.num_children = cs.length := by
        simp [Node.num_children, hn]
      rw [hlen] at h
      have hnle : ¬ index ≤ cs.length := by omega
      simp [Node.insert_child, hn, hnle]
  · intro cs index h
    simp [TreeNodeRefCell.remove_child_index, Nat.not_lt.mpr h]
  · intro index
    simp [TreeNodeRefCell.remove_child_index]

theorem insert_remove_bounds_behavior_witness :
    (Node.mk 0 "p" (some [Node.mk 1 "c" none none 0]) none 0).num_children < 7 ∧
    (Node.mk 0 "p" (some [Node.mk 1 "c" none none 0]) none 0).insert_child
      (Node.mk 2 "n" none none 0) 7 =
      (Node.mk 0 "p" (some [Node.mk 1 "c" none none 0]) none 0, none) ∧
    ([7] : List Nat).length ≤ 5 ∧
    TreeNodeRefCell.remove_child_index (some [(7 : Nat)]) 5 = none :=
  ⟨by decide, insert_remove_bounds_behavior.1 _ _ 7 (by decide), by decide,
    insert_remove_bounds_behavior.2.1 [7] 5 (by decide)⟩

/-- C10: when the diff pops a dest/source pair in which both nodes have
no children vec and the subtree hashes differ, it unwraps both parent
links and re-diffs the parents; for two childless roots this unwrap
panics instead of returning a patch. -/
theorem diff_childless_mismatch_panics (d s : Node) (h1 : d.children = none)
    (h2 : s.children = none) (h3 : d.subtree_hash ≠ s.subtree_hash) (fuel : Nat) :
    diff (fuel + 1) d s = DiffOut.panicked := by
  unfold diff diffGo
  simp [nodeAtPath, h1, h2, h3]

theorem diff_childless_mismatch_panics_witness :
    destLeafTree.children = none ∧ sourceLeafTree.children = none ∧
    destLeafTree.subtree_hash ≠ sourceLeafTree.subtree_hash ∧
    diff 10 destLeafTree sourceLeafTree = DiffOut.panicked :=
  ⟨by rfl, by rfl, by decide,
    diff_childless_mismatch_panics destLeafTree sourceLeafTree (by rfl) (by rfl)
      (by decide) 9⟩

/-- C5 counterexample: on the wrapper-insertion scenario the diff does
detect the move-by-wrapping case, but none of the emitted operations
targets node a (the dest node with id 1): all three target the dest
node 1 (id 2), the child whose subtree was wrapped. -/
theorem move_by_wrapping_not_on_node_a :
    idAt destWrapTree [0] = 1 ∧
    (nodeAtPath destWrapTree [0]).map Node.data = some "a" ∧
    (diffOps (diff 20 destWrapTree sourceWrapTree)).length = 3 ∧
    ((diffOps (diff 20 destWrapTree sourceWrapTree)).map
      TreePatchOperation.destId).all (fun d => d ≠ 1) = true := by
  decide

/-- C5 amended: on the wrapper-insertion scenario the diff detects the
move-by-wrapping case (the source child's subtree hash equals the dest
node's own subtree hash) at the dest node 1 (the child of a), and emits
SetChildren plus ReplaceNode on node 1 — preceded by a ReplaceNode on
node 1 from the node-local data-hash mismatch of that same pair — not a
naive per-level insert, and not on node a. -/
theorem move_by_wrapping_emits_on_wrapped_child :
    (nodeAtPath sourceWrapTree [0, 0, 0]).map Node.subtree_hash =
      (nodeAtPath destWrapTree [0, 0]).map Node.subtree_hash ∧
    idAt destWrapTree [0, 0] = 2 ∧
    (nodeAtPath destWrapTree [0, 0]).map Node.data = some "1" ∧
    (diffOps (diff 20 destWrapTree sourceWrapTree)).map TreePatchOperation.sig =
      [(TreePatchOperation.replaceNode 2 wrapSourceB).sig,
       (TreePatchOperation.setChildren 2 wrapSourceB.childrenList).sig,
       (TreePatchOperation.replaceNode 2 wrapSourceB).sig] := by
  decide

/-- C1 at its failing input: dest root[a, b, c] against source
root[d, a].  The sibling edit distance produces an insert below a
delete; the sorted order applies the insert first, which shifts the
later delete indices, so patching yields root[d, c] instead of
root[d, a]: the patched tree's root subtree hash differs from the
source tree's root subtree hash. -/
theorem diff_patch_roundtrip_failing_input :
    (diffOps (diff 20 destSeqTree.1 sourceSeqTree.1)).map TreePatchOperation.sig =
      [(TreePatchOperation.insertChild 0 0 seqSourceD).sig,
       (TreePatchOperation.deleteChild 0 2).sig,
       (TreePatchOperation.deleteChild 0 1).sig] ∧
    sourceSeqTree.1.childrenList.map Node.data = ["d", "a"] ∧
    ((patch_tree (diffOps (diff 20 destSeqTree.1 sourceSeqTree.1))
      destSeqTree.1 destSeqTree.2).1.childrenList.map Node.data = ["d", "c"]) ∧
    (patch_tree (diffOps (diff 20 destSeqTree.1 sourceSeqTree.1))
      destSeqTree.1 destSeqTree.2).1.subtree_hash ≠ sourceSeqTree.1.subtree_hash := by
  decide

/-- C6 counterexample: Tree::set_children refreshes only the ids of the
nodes passed at top level; a grandchild of the materialized subtree
keeps its source-tree identity (51, allocated outside the destination
generator, which is at 100). -/
theorem set_children_retains_descendant_identity :
    allIds srcChild = [50, 51] ∧
    allIds (Tree.set_children 100 parentP [srcChild]).1 = [0, 100, 51] ∧
    51 ∈ allIds (Tree.set_children 100 parentP [srcChild]).1 ∧ 51 < 100 := by
  decide

/-! ## Induction principles for the nested node types -/

/-- Simultaneous induction over nodes and node lists. -/
theorem nodeListInduction {P : Node → Prop} {Q : List Node → Prop}
    (h1 : ∀ i d p hh, Q [] → P (Node.mk i d none p hh))
    (h2 : ∀ i d cs p hh, Q cs → P (Node.mk i d (some cs) p hh))
    (hnil : Q [])
    (hcons : ∀ c cs, P c → Q cs → Q (c :: cs)) :
    (∀ t, P t) ∧ (∀ l, Q l) := by
  have key : ∀ t : Node, P t := by
    intro t
    induction t using Node.rec (motive_2 := fun o => Q (o.getD [])) (motive_3 := Q) with
    | mk i d cs p hh ih =>
      cases cs with
      | none => exact h1 i d p hh hnil
      | some l => exact h2 i d l p hh ih
    | none => exact hnil
    | some val ih => exact ih
    | nil => exact hnil
    | cons c cs ihc ihcs => exact hcons c cs ihc ihcs
  refine ⟨key, ?_⟩
  intro l
  induction l with
  | nil => exact hnil
  | cons c cs ih => exact hcons c cs (key c) ih

/-- Simultaneous induction over build descriptions and their lists. -/
theorem testNodeListInduction {P : TestNode → Prop} {Q : List TestNode → Prop}
    (h1 : ∀ d cs, Q cs → P (TestNode.mk d cs))
    (hnil : Q [])
    (hcons : ∀ c cs, P c → Q cs → Q (c :: cs)) :
    (∀ t, P t) ∧ (∀ l, Q l) := by
  have key : ∀ t : TestNode, P t := by
    intro t
    induction t using TestNode.rec (motive_2 := Q) with
    | mk d cs ih => exact h1 d cs ih
    | nil => exact hnil
    | cons c cs ihc ihcs => exact hcons c cs ihc ihcs
  refine ⟨key, ?_⟩
  intro l
  induction l with
  | nil => exact hnil
  | cons c cs ih => exact hcons c cs (key c) ih

/-! ## Field lemmas -/

theorem Node.withId_id (n : Node) (i : Nat) : (n.withId i).id = i := by
  cases n; rfl

theorem Node.withId_children (n : Node) (i : Nat) : (n.withId i).children = n.children := by
  cases n; rfl

theorem Node.withChildren_children (n : Node) (o : Option (List Node)) :
    (n.withChildren o).children = o := by
  cases n; rfl

theorem Node.withHash_children (n : Node) (h : Nat) : (n.withHash h).children = n.children := by
  cases n; rfl

theorem Node.withHash_hash (n : Node) (h : Nat) : (n.withHash h).subtree_hash = h := by
  cases n; rfl

theorem nodeHashStream_withHash (n : Node) (h : Nat) :
    nodeHashStream (n.withHash h) = nodeHashStream n := by
  cases n with
  | mk i d cs p hh => cases cs <;> rfl

/-! ## Fresh-id lemmas for C6 -/

theorem freshIds_spec :
    (∀ t : Node, ∀ g, allIds (freshIds g t).1 = List.range' g (treeSize t) ∧
      (freshIds g t).2 = g + treeSize t) ∧
    (∀ l : List Node, ∀ g, allIdsList (freshIdsList g l).1 = List.range' g (treeSizeList l) ∧
      (freshIdsList g l).2 = g + treeSizeList l) := by
  refine nodeListInduction ?_ ?_ ?_ ?_
  · intro i d p hh _ g
    simp [freshIds, allIds, treeSize, List.range']
  · intro i d cs p hh ih g
    obtain ⟨hids, hg⟩ := ih (g + 1)
    cases hfl : freshIdsList (g + 1) cs with
    | mk cs' g' =>
      rw [hfl] at hids hg
      simp only [freshIds, hfl, allIds, treeSize]
      dsimp only at hids hg
      constructor
      · rw [hids]
        rw [Nat.add_comm 1 (treeSizeList cs)]
        rfl
      · dsimp only
        omega
  · intro g; simp [freshIdsList, treeSizeList, allIdsList, List.range']
  · intro c cs ihc ihcs g
    obtain ⟨hc1, hc2⟩ := ihc g
    cases hfc : freshIds g c with
    | mk c' g1 =>
      rw [hfc] at hc1 hc2
      dsimp only at hc1 hc2
      obtain ⟨hl1, hl2⟩ := ihcs g1
      cases hfl : freshIdsList g1 cs with
      | mk cs' g2 =>
        rw [hfl] at hl1 hl2
        dsimp only at hl1 hl2
        simp only [freshIdsList, hfc, hfl, allIdsList, treeSizeList]
        constructor
        · rw [hc1, hl1, hc2]
          have happ := List.range'_append g (treeSize c) (treeSizeList cs) 1
          simp only [one_mul] at happ
          rw [happ, Nat.add_comm (treeSizeList cs) (treeSize c)]
        · dsimp only
          omega

theorem freshTopIds_spec (cs : List Node) : ∀ g,
    (freshTopIds g cs).1.map Node.id = List.range' g cs.length ∧
    (freshTopIds g cs).1.map Node.children = cs.map Node.children ∧
    (freshTopIds g cs).2 = g + cs.length := by
  induction cs with
  | nil => intro g; simp [freshTopIds, List.range']
  | cons c rest ih =>
    intro g
    obtain ⟨h1, h2, h3⟩ := ih (g + 1)
    cases hf : freshTopIds (g + 1) rest with
    | mk rest' g' =>
      rw [hf] at h1 h2 h3
      dsimp only at h1 h2 h3
      simp only [freshTopIds, hf, List.map_cons, List.length_cons]
      refine ⟨?_, ?_, ?_⟩
      · rw [h1, Node.withId_id]
        rfl
      · rw [h2, Node.withId_children]
      · dsimp only
        omega

/-- C6 amended: insert_subtree draws a fresh identity for every node of
the materialized subtree (ids g, g+1, ... in walk order); set_children
draws fresh identities only for the nodes passed at top level, keeping
their children (hence all deeper identities) intact; replace_child
draws fresh identities for the replacement node and its direct children
only, keeping the grandchildren intact. -/
theorem materialization_fresh_identity_scope :
    (∀ g cs, (freshTopIds g cs).1.map Node.id = List.range' g cs.length ∧
      (freshTopIds g cs).1.map Node.children = cs.map Node.children) ∧
    (∀ g t, allIds (freshIds g t).1 = List.range' g (treeSize t)) ∧
    (∀ g parent cs, (Tree.set_children g parent cs).1.children = some (freshTopIds g cs).1) ∧
    (∀ g parent index subtree, Tree.insert_subtree g parent index subtree =
      ((parent.insert_child (freshIds g subtree).1 index).1, (freshIds g subtree).2)) ∧
    (∀ g parent index new directs, new.children = some directs →
      (Tree.replace_child g parent index new).1.children =
        (parent.children).map (fun cs => cs.set index
          ((new.withId g).withChildren (some (freshTopIds (g + 1) directs).1)))) := by
  refine ⟨?_, ?_, ?_, ?_, ?_⟩
  · intro g cs
    exact ⟨(freshTopIds_spec cs g).1, (freshTopIds_spec cs g).2.1⟩
  · intro g t
    exact (freshIds_spec.1 t g).1
  · intro g parent cs
    cases hf : freshTopIds g cs with
    | mk cs' g' => simp [Tree.set_children, hf, Node.withChildren_children]
  · intro g parent index subtree
    cases hf : freshIds g subtree with
    | mk s' g' => simp [Tree.insert_subtree, hf]
  · intro g parent index new directs h
    have hnc : (new.withId g).children = some directs := by
      rw [Node.withId_children, h]
    cases hf : freshTopIds (g + 1) directs with
    | mk d' g' =>
      simp only [Tree.replace_child, hnc, hf, Node.withChildren_children]

theorem materialization_fresh_identity_scope_witness :
    allIds (freshIds 100 srcChild).1 = List.range' 100 (treeSize srcChild) ∧
    (Tree.set_children 100 parentP [srcChild]).1.children = some (freshTopIds 100 [srcChild]).1 ∧
    srcChild.children = some [Node.mk 51 "g" none none 0] ∧
    (Tree.replace_child 100 parentP 0 srcChild).1.children =
      (parentP.children).map (fun cs => cs.set 0 ((srcChild.withId 100).withChildren
        (some (freshTopIds 101 [Node.mk 51 "g" none none 0]).1))) :=
  ⟨materialization_fresh_identity_scope.2.1 100 srcChild,
   materialization_fresh_identity_scope.2.2.1 100 parentP [srcChild],
   rfl,
   materialization_fresh_identity_scope.2.2.2.2 100 parentP 0 srcChild
     [Node.mk 51 "g" none none 0] rfl⟩

/-! ## Builder hash correctness (C2) -/

/-- Finalizing one builder scope yields a node whose stored subtree
hash is the digest of its children's stored hashes followed by its own
hash stream; the property propagates over the whole subtree. -/
theorem mkBuiltNode_hash_ok (i : Nat) (d : String) (pos : Option NodePosition)
    (built : List Node)
    (hb : ∀ n ∈ treeNodesList built, n.subtree_hash = computeSubtreeHash n) :
    ∀ n ∈ treeNodes (mkBuiltNode i d pos built), n.subtree_hash = computeSubtreeHash n := by
  intro n hn
  cases built with
  | nil =>
    have he : mkBuiltNode i d pos [] =
        Node.mk i d none pos
          (xxh64 0 (childSubtreeWrites [] ++ nodeHashStream (Node.mk i d none pos 0))) := rfl
    rw [he] at hn
    simp only [treeNodes, List.mem_singleton] at hn
    subst hn
    rfl
  | cons b bs =>
    have he : mkBuiltNode i d pos (b :: bs) =
        Node.mk i d (some (b :: bs)) pos
          (xxh64 0 (childSubtreeWrites (b :: bs) ++
            nodeHashStream (Node.mk i d (some (b :: bs)) pos 0))) := rfl
    rw [he] at hn
    simp only [treeNodes, List.mem_cons] at hn
    rcases hn with hn | hn
    · subst hn
      rfl
    · exact hb n hn

/-- Every node of a tree assembled by the builder satisfies the stored
subtree-hash digest equation. -/
theorem buildHashOk :
    (∀ desc : TestNode, ∀ g dj pd ci, ∀ n ∈ treeNodes (buildChild g dj pd ci desc).1,
      n.subtree_hash = computeSubtreeHash n) ∧
    (∀ l : List TestNode, ∀ g dj pd ci, ∀ n ∈ treeNodesList (buildChildren g dj pd ci l).1,
      n.subtree_hash = computeSubtreeHash n) := by
  refine testNodeListInduction ?_ ?_ ?_
  · intro d cs ih g dj pd ci n hn
    have ihinst := ih (g + 1) (fun x => if x = pd + 1 then dj (pd + 1) + 1 else dj x) (pd + 1) 0
    simp only [buildChild] at hn
    cases hbc : buildChildren (g + 1) (fun x => if x = pd + 1 then dj (pd + 1) + 1 else dj x)
        (pd + 1) 0 cs with
    | mk built rest =>
      rw [hbc] at hn ihinst
      dsimp only at hn ihinst
      cases rest with
      | mk g1 dj2 =>
        exact mkBuiltNode_hash_ok g d _ built ihinst n hn
  · intro g dj pd ci n hn
    simp [buildChildren, treeNodesList] at hn
  · intro c cs ihc ihcs g dj pd ci n hn
    simp only [buildChildren] at hn
    cases hb1 : buildChild g dj pd ci c with
    | mk nn rest1 =>
      cases rest1 with
      | mk g1 dj1 =>
        rw [hb1] at hn
        cases hb2 : buildChildren g1 dj1 pd (ci + 1) cs with
        | mk ns rest2 =>
          cases rest2 with
          | mk g2 dj2 =>
            rw [hb2] at hn
            dsimp only at hn
            simp only [treeNodesList, List.mem_append] at hn
            rcases hn with hn | hn
            · have := ihc g dj pd ci n
              rw [hb1] at this
              exact this hn
            · have := ihcs g1 dj1 pd (ci + 1) n
              rw [hb2] at this
              exact this hn

/-- C2: for every tree produced by the builder and every node n in it,
the cached subtree_hash equals the XXH64 (seed 0) digest of the byte
stream made of each child's already-computed subtree_hash written in
sibling order followed by n's own node hash stream; children are
finalized strictly before their parent, so the stored digest is a
function of the node's own hash stream and the ordered child subtree
hashes. -/
theorem builder_subtree_hash_digest (descs : List TestNode) (n : Node)
    (hmem : n ∈ treeNodes (test_tree_node descs).1) :
    n.subtree_hash = xxh64 0 (childSubtreeWrites n.childrenList ++ nodeHashStream n) := by
  have key : n.subtree_hash = computeSubtreeHash n := by
    have hq := buildHashOk.2 descs 1 (fun _ => 0) 0 0
    simp only [test_tree_node] at hmem
    cases hbc : buildChildren 1 (fun _ => 0) 0 0 descs with
    | mk built rest =>
      rw [hbc] at hmem hq
      dsimp only at hmem hq
      exact mkBuiltNode_hash_ok 0 "root" _ built hq n hmem
  exact key

theorem builder_subtree_hash_digest_witness :
    destWrapTree.subtree_hash =
      xxh64 0 (childSubtreeWrites destWrapTree.childrenList ++ nodeHashStream destWrapTree) :=
  builder_subtree_hash_digest [TestNode.mk "a" [TestNode.mk "1" [leafD "x"]]] destWrapTree
    (List.mem_cons_self _ _)

/-! ## Edit ordering (C3) -/

theorem compare_ne_gt {m n : Nat} : (compare m n ≠ Ordering.gt) ↔ m ≤ n := by
  rw [Ne, Nat.compare_eq_gt]
  omega

theorem editLeTotal : ∀ a b : Edit, Edit.le a b ∨ Edit.le b a := by
  intro a b
  rcases a with d1 | ⟨d1, s1⟩ | ⟨d1, s1⟩ <;> rcases b with d2 | ⟨d2, s2⟩ | ⟨d2, s2⟩ <;>
    simp [Edit.le, Edit.cmp, compare_ne_gt] <;> omega

theorem editLeTrans : ∀ a b c : Edit, Edit.le a b → Edit.le b c → Edit.le a c := by
  intro a b c hab hbc
  rcases a with d1 | ⟨d1, s1⟩ | ⟨d1, s1⟩ <;> rcases b with d2 | ⟨d2, s2⟩ | ⟨d2, s2⟩ <;>
    rcases c with d3 | ⟨d3, s3⟩ | ⟨d3, s3⟩ <;>
    simp_all [Edit.le, Edit.cmp, compare_ne_gt] <;> omega

/-- What the Edit order guarantees about any le-related pair. -/
theorem Edit.le_spec {a b : Edit} (h : Edit.le a b) :
    a.classRank ≤ b.classRank ∧
    (a.classRank = 0 → b.classRank = 0 → a.destIndex ≤ b.destIndex) ∧
    (a.classRank = 1 → b.classRank = 1 → b.destIndex ≤ a.destIndex) ∧
    (a.classRank = 2 → b.classRank = 2 → b.destIndex ≤ a.destIndex) := by
  rcases a with d1 | ⟨d1, s1⟩ | ⟨d1, s1⟩ <;> rcases b with d2 | ⟨d2, s2⟩ | ⟨d2, s2⟩ <;>
    simp_all [Edit.le, Edit.cmp, compare_ne_gt, Edit.classRank, Edit.destIndex]

/-- C3: after sorting any Vec of Edit with the Edit Ord instance (as
vec_edits does before returning), earlier entries never have a later
class (Replace before Insert before Delete), Replace entries appear in
ascending dest_index order, and Insert and Delete entries each appear
in descending dest_index order. -/
theorem edit_sort_class_and_index_order (l : List Edit) (i j : Nat)
    (hij : i < j) (hj : j < (sortEdits l).length) :
    ((sortEdits l).get ⟨i, Nat.lt_trans hij hj⟩).classRank ≤
      ((sortEdits l).get ⟨j, hj⟩).classRank ∧
    (((sortEdits l).get ⟨i, Nat.lt_trans hij hj⟩).classRank = 0 →
      ((sortEdits l).get ⟨j, hj⟩).classRank = 0 →
      ((sortEdits l).get ⟨i, Nat.lt_trans hij hj⟩).destIndex ≤
        ((sortEdits l).get ⟨j, hj⟩).destIndex) ∧
    (((sortEdits l).get ⟨i, Nat.lt_trans hij hj⟩).classRank = 1 →
      ((sortEdits l).get ⟨j, hj⟩).classRank = 1 →
      ((sortEdits l).get ⟨j, hj⟩).destIndex ≤
        ((sortEdits l).get ⟨i, Nat.lt_trans hij hj⟩).destIndex) ∧
    (((sortEdits l).get ⟨i, Nat.lt_trans hij hj⟩).classRank = 2 →
      ((sortEdits l).get ⟨j, hj⟩).classRank = 2 →
      ((sortEdits l).get ⟨j, hj⟩).destIndex ≤
        ((sortEdits l).get ⟨i, Nat.lt_trans hij hj⟩).destIndex) := by
  haveI : IsTotal Edit Edit.le := ⟨editLeTotal⟩
  haveI : IsTrans Edit Edit.le := ⟨fun a b c => editLeTrans a b c⟩
  have hs : List.Sorted Edit.le (sortEdits l) := List.sorted_insertionSort Edit.le l
  have hle : Edit.le ((sortEdits l).get ⟨i, Nat.lt_trans hij hj⟩) ((sortEdits l).get ⟨j, hj⟩) := by
    have := List.pairwise_iff_getElem.mp hs i j (Nat.lt_trans hij hj) hj hij
    simpa [List.get_eq_getElem] using this
  exact Edit.le_spec hle

theorem edit_sort_class_and_index_order_witness :
    0 < 5 ∧ 5 < (sortEdits editOrderVec).length ∧
    ((sortEdits editOrderVec).get ⟨0, Nat.lt_trans (show 0 < 5 by decide)
      (show 5 < (sortEdits editOrderVec).length by decide)⟩).classRank ≤
      ((sortEdits editOrderVec).get
        ⟨5, show 5 < (sortEdits editOrderVec).length by decide⟩).classRank :=
  ⟨by decide, by decide,
    (edit_sort_class_and_index_order editOrderVec 0 5 (by decide) (by decide)).1⟩


/-! ## Sibling edit distance: minimality (C4) -/

section EditDistance

variable (dest source : List Nat)

theorem distAux_fuel : ∀ n m i j, i + j ≤ n → i + j ≤ m →
    distAux dest source n i j = distAux dest source m i j := by
  intro n
  induction n with
  | zero =>
    intro m i j h1 _
    have hi : i = 0 := by omega
    have hj : j = 0 := by omega
    subst hi; subst hj
    cases m <;> rfl
  | succ n ih =>
    intro m i j h1 h2
    match i, j with
    | i, 0 => cases i <;> cases m <;> rfl
    | 0, j + 1 =>
      cases m with
      | zero => omega
      | succ m => rfl
    | i + 1, j + 1 =>
      cases m with
      | zero => omega
      | succ m =>
        show distAux dest source (n + 1) (i + 1) (j + 1)
          = distAux dest source (m + 1) (i + 1) (j + 1)
        simp only [distAux]
        rw [ih m i j (by omega) (by omega), ih m (i + 1) j (by omega) (by omega),
          ih m i (j + 1) (by omega) (by omega)]

theorem dist_base_left (i : Nat) : dist dest source i 0 = i := by
  unfold dist
  cases i <;> rfl

theorem dist_base_top (j : Nat) : dist dest source 0 j = j := by
  unfold dist
  cases j <;> rfl

theorem dist_succ_succ (i j : Nat) : dist dest source (i + 1) (j + 1) =
    if dest.getD i 0 = source.getD j 0 then dist dest source i j
    else 1 + min (dist dest source i j) (min (dist dest source (i + 1) j)
      (dist dest source i (j + 1))) := by
  show distAux dest source (i + 1 + (j + 1)) (i + 1) (j + 1) = _
  have he : i + 1 + (j + 1) = (i + j + 1) + 1 := by omega
  rw [he]
  simp only [distAux, dist]
  rw [distAux_fuel dest source (i + j + 1) (i + j) i j (by omega) (by omega),
    distAux_fuel dest source (i + j + 1) (i + 1 + j) (i + 1) j (by omega) (by omega),
    distAux_fuel dest source (i + j + 1) (i + (j + 1)) i (j + 1) (by omega) (by omega)]

theorem backtrackAux_fuel : ∀ n m i j, i + j ≤ n → i + j ≤ m →
    backtrackAux dest source n i j = backtrackAux dest source m i j := by
  intro n
  induction n with
  | zero =>
    intro m i j h1 _
    have hi : i = 0 := by omega
    have hj : j = 0 := by omega
    subst hi; subst hj
    cases m <;> rfl
  | succ n ih =>
    intro m i j h1 h2
    match i, j with
    | 0, 0 => cases m <;> rfl
    | i + 1, 0 =>
      cases m with
      | zero => omega
      | succ m =>
        show Edit.delete i :: backtrackAux dest source n i 0
          = Edit.delete i :: backtrackAux dest source m i 0
        rw [ih m i 0 (by omega) (by omega)]
    | 0, j + 1 =>
      cases m with
      | zero => omega
      | succ m =>
        show Edit.insert 0 j :: backtrackAux dest source n 0 j
          = Edit.insert 0 j :: backtrackAux dest source m 0 j
        rw [ih m 0 j (by omega) (by omega)]
    | i + 1, j + 1 =>
      cases m with
      | zero => omega
      | succ m =>
        show (if dest.getD i 0 = source.getD j 0 then backtrackAux dest source n i j
            else if dist dest source (i + 1) (j + 1) = dist dest source i (j + 1) + 1 then
              Edit.delete i :: backtrackAux dest source n i (j + 1)
            else if dist dest source (i + 1) (j + 1) = dist dest source (i + 1) j + 1 then
              Edit.insert (i + 1) j :: backtrackAux dest source n (i + 1) j
            else Edit.replace i j :: backtrackAux dest source n i j) = _
        rw [ih m i j (by omega) (by omega), ih m i (j + 1) (by omega) (by omega),
          ih m (i + 1) j (by omega) (by omega)]
        rfl

theorem backtrack_zero : backtrack dest source 0 0 = [] := rfl

theorem backtrack_left (i : Nat) :
    backtrack dest source (i + 1) 0 = Edit.delete i :: backtrack dest source i 0 := rfl

theorem backtrack_top (j : Nat) :
    backtrack dest source 0 (j + 1) = Edit.insert 0 j :: backtrack dest source 0 j := by
  show backtrackAux dest source (0 + (j + 1)) 0 (j + 1) = _
  have he : 0 + (j + 1) = j + 1 := by omega
  rw [he]
  show Edit.insert 0 j :: backtrackAux dest source j 0 j = _
  rw [backtrackAux_fuel dest source j (0 + j) 0 j (by omega) (by omega)]
  rfl

theorem backtrack_succ_succ (i j : Nat) : backtrack dest source (i + 1) (j + 1) =
    if dest.getD i 0 = source.getD j 0 then backtrack dest source i j
    else if dist dest source (i + 1) (j + 1) = dist dest source i (j + 1) + 1 then
      Edit.delete i :: backtrack dest source i (j + 1)
    else if dist dest source (i + 1) (j + 1) = dist dest source (i + 1) j + 1 then
      Edit.insert (i + 1) j :: backtrack dest source (i + 1) j
    else Edit.replace i j :: backtrack dest source i j := by
  show backtrackAux dest source (i + 1 + (j + 1)) (i + 1) (j + 1) = _
  have he : i + 1 + (j + 1) = (i + j + 1) + 1 := by omega
  rw [he]
  show (if dest.getD i 0 = source.getD j 0 then backtrackAux dest source (i + j + 1) i j
      else if dist dest source (i + 1) (j + 1) = dist dest source i (j + 1) + 1 then
        Edit.delete i :: backtrackAux dest source (i + j + 1) i (j + 1)
      else if dist dest source (i + 1) (j + 1) = dist dest source (i + 1) j + 1 then
        Edit.insert (i + 1) j :: backtrackAux dest source (i + j + 1) (i + 1) j
      else Edit.replace i j :: backtrackAux dest source (i + j + 1) i j) = _
  rw [backtrackAux_fuel dest source (i + j + 1) (i + j) i j (by omega) (by omega),
    backtrackAux_fuel dest source (i + j + 1) (i + (j + 1)) i (j + 1) (by omega) (by omega),
    backtrackAux_fuel dest source (i + j + 1) (i + 1 + j) (i + 1) j (by omega) (by omega)]
  rfl

/-- The number of edits collected by the backtrack equals the matrix
distance at the starting cell: every step either moves diagonally for
free on equal hashes or records exactly one edit accounted by the
distance. -/
theorem backtrack_length : ∀ N i j, i + j ≤ N →
    (backtrack dest source i j).length = dist dest source i j := by
  intro N
  induction N with
  | zero =>
    intro i j h
    have hi : i = 0 := by omega
    have hj : j = 0 := by omega
    subst hi; subst hj
    simp [backtrack_zero, dist_base_left]
  | succ N ih =>
    intro i j h
    match i, j with
    | 0, 0 => simp [backtrack_zero, dist_base_left]
    | i + 1, 0 =>
      rw [backtrack_left, dist_base_left]
      simp only [List.length_cons]
      rw [ih i 0 (by omega), dist_base_left]
    | 0, j + 1 =>
      rw [backtrack_top, dist_base_top]
      simp only [List.length_cons]
      rw [ih 0 j (by omega), dist_base_top]
    | i + 1, j + 1 =>
      rw [backtrack_succ_succ]
      by_cases heq : dest.getD i 0 = source.getD j 0
      · rw [if_pos heq, ih i j (by omega), dist_succ_succ, if_pos heq]
      · rw [if_neg heq]
        by_cases hdel : dist dest source (i + 1) (j + 1) = dist dest source i (j + 1) + 1
        · rw [if_pos hdel]
          simp only [List.length_cons]
          rw [ih i (j + 1) (by omega), hdel]
        · rw [if_neg hdel]
          by_cases hins : dist dest source (i + 1) (j + 1) = dist dest source (i + 1) j + 1
          · rw [if_pos hins]
            simp only [List.length_cons]
            rw [ih (i + 1) j (by omega), hins]
          · rw [if_neg hins]
            simp only [List.length_cons]
            rw [ih i j (by omega)]
            -- in the remaining case the distance is explained by the diagonal
            have hform := dist_succ_succ dest source i j
            rw [if_neg heq] at hform
            have hle1 : min (dist dest source i j) (min (dist dest source (i + 1) j)
                (dist dest source i (j + 1))) ≤ dist dest source (i + 1) j := by
              have := Nat.min_le_right (dist dest source (i + 1) j) (dist dest source i (j + 1))
              have h2 := Nat.min_le_left (dist dest source (i + 1) j) (dist dest source i (j + 1))
              exact le_trans (Nat.min_le_right _ _) h2
            have hle2 : min (dist dest source i j) (min (dist dest source (i + 1) j)
                (dist dest source i (j + 1))) ≤ dist dest source i (j + 1) := by
              exact le_trans (Nat.min_le_right _ _) (Nat.min_le_right _ _)
            have hle3 : min (dist dest source i j) (min (dist dest source (i + 1) j)
                (dist dest source i (j + 1))) ≤ dist dest source i j := Nat.min_le_left _ _
            have hmin : min (dist dest source i j) (min (dist dest source (i + 1) j)
                (dist dest source i (j + 1))) = dist dest source i j := by
              rcases Nat.lt_or_ge (min (dist dest source (i + 1) j) (dist dest source i (j + 1)))
                (dist dest source i j) with hlt | hge
              · exfalso
                rcases Nat.le_total (dist dest source (i + 1) j) (dist dest source i (j + 1))
                  with hab | hab
                · apply hins
                  rw [hform]
                  have : min (dist dest source (i + 1) j) (dist dest source i (j + 1)) =
                    dist dest source (i + 1) j := Nat.min_eq_left hab
                  omega
                · apply hdel
                  rw [hform]
                  have : min (dist dest source (i + 1) j) (dist dest source i (j + 1)) =
                    dist dest source i (j + 1) := Nat.min_eq_right hab
                  omega
              · exact Nat.min_eq_left (le_trans hge (le_refl _)) |>.symm ▸ Nat.min_eq_left hge
            rw [hform, hmin]
            omega

/-- Over a backtrack from cell (i, j), i plus the number of Insert
edits equals j plus the number of Delete edits. -/
theorem backtrack_counts : ∀ N i j, i + j ≤ N →
    i + (backtrack dest source i j).countP Edit.isIns =
      j + (backtrack dest source i j).countP Edit.isDel := by
  intro N
  induction N with
  | zero =>
    intro i j h
    have hi : i = 0 := by omega
    have hj : j = 0 := by omega
    subst hi; subst hj
    rfl
  | succ N ih =>
    intro i j h
    match i, j with
    | 0, 0 => rfl
    | i + 1, 0 =>
      rw [backtrack_left]
      have := ih i 0 (by omega)
      simp [List.countP_cons, Edit.isIns, Edit.isDel]
      omega
    | 0, j + 1 =>
      rw [backtrack_top]
      have := ih 0 j (by omega)
      simp [List.countP_cons, Edit.isIns, Edit.isDel]
      omega
    | i + 1, j + 1 =>
      rw [backtrack_succ_succ]
      by_cases heq : dest.getD i 0 = source.getD j 0
      · rw [if_pos heq]
        have := ih i j (by omega)
        omega
      · rw [if_neg heq]
        by_cases hdel : dist dest source (i + 1) (j + 1) = dist dest source i (j + 1) + 1
        · rw [if_pos hdel]
          have := ih i (j + 1) (by omega)
          simp [List.countP_cons, Edit.isIns, Edit.isDel]
          omega
        · rw [if_neg hdel]
          by_cases hins : dist dest source (i + 1) (j + 1) = dist dest source (i + 1) j + 1
          · rw [if_pos hins]
            have := ih (i + 1) j (by omega)
            simp [List.countP_cons, Edit.isIns, Edit.isDel]
            omega
          · rw [if_neg hins]
            have := ih i j (by omega)
            simp [List.countP_cons, Edit.isIns, Edit.isDel]
            omega

end EditDistance

theorem getD_append_left (l1 l2 : List Nat) (k : Nat) (h : k < l1.length) :
    (l1 ++ l2).getD k 0 = l1.getD k 0 := by
  rw [List.getD_eq_getElem?_getD, List.getD_eq_getElem?_getD, List.getElem?_append_left h]

theorem getD_append_self (l1 : List Nat) (a : Nat) (l2 : List Nat) :
    (l1 ++ a :: l2).getD l1.length 0 = a := by
  rw [List.getD_eq_getElem?_getD, List.getElem?_append_right (le_refl _)]
  simp

section EditDistance2

variable (dest source : List Nat)

theorem dist_diag_zero : ∀ i, (∀ k, k < i → dest.getD k 0 = source.getD k 0) →
    dist dest source i i = 0 := by
  intro i
  induction i with
  | zero => intro _; rw [dist_base_left]
  | succ i ih =>
    intro h
    rw [dist_succ_succ, if_pos (h i (by omega))]
    exact ih (fun k hk => h k (by omega))

theorem dist_eq_zero_imp : ∀ N i j, i + j ≤ N → dist dest source i j = 0 → i = j := by
  intro N
  induction N with
  | zero =>
    intro i j h _
    omega
  | succ N ih =>
    intro i j h hz
    match i, j with
    | 0, 0 => rfl
    | i + 1, 0 => rw [dist_base_left] at hz; omega
    | 0, j + 1 => rw [dist_base_top] at hz; omega
    | i + 1, j + 1 =>
      rw [dist_succ_succ] at hz
      by_cases heq : dest.getD i 0 = source.getD j 0
      · rw [if_pos heq] at hz
        have := ih i j (by omega) hz
        omega
      · rw [if_neg heq] at hz
        omega

end EditDistance2

/-- A matrix cell depends only on the prefixes it compares. -/
theorem dist_congr : ∀ N (d1 s1 d2 s2 : List Nat) i j, i + j ≤ N →
    (∀ k, k < i → d1.getD k 0 = d2.getD k 0) →
    (∀ k, k < j → s1.getD k 0 = s2.getD k 0) →
    dist d1 s1 i j = dist d2 s2 i j := by
  intro N
  induction N with
  | zero =>
    intro d1 s1 d2 s2 i j h _ _
    have hi : i = 0 := by omega
    have hj : j = 0 := by omega
    subst hi; subst hj
    rw [dist_base_left, dist_base_left]
  | succ N ih =>
    intro d1 s1 d2 s2 i j h hd hs
    match i, j with
    | i, 0 => rw [dist_base_left, dist_base_left]
    | 0, j + 1 => rw [dist_base_top, dist_base_top]
    | i + 1, j + 1 =>
      rw [dist_succ_succ, dist_succ_succ]
      rw [hd i (by omega), hs j (by omega)]
      have hd1 : ∀ k, k < i → d1.getD k 0 = d2.getD k 0 := fun k hk => hd k (by omega)
      have hs1 : ∀ k, k < j → s1.getD k 0 = s2.getD k 0 := fun k hk => hs k (by omega)
      rw [ih d1 s1 d2 s2 i j (by omega) hd1 hs1,
        ih d1 s1 d2 s2 (i + 1) j (by omega) hd hs1,
        ih d1 s1 d2 s2 i (j + 1) (by omega) hd1 hs]

/-- Band bound for a single appended element on the source side. -/
theorem ins_band (d : List Nat) (a : Nat) : ∀ i, i ≤ d.length →
    dist d (d ++ [a]) i (i + 1) ≤ 1 := by
  intro i
  induction i with
  | zero => intro _; rw [dist_base_top]
  | succ i ih =>
    intro h
    rw [dist_succ_succ]
    by_cases heq : d.getD i 0 = (d ++ [a]).getD (i + 1) 0
    · rw [if_pos heq]
      exact ih (by omega)
    · rw [if_neg heq]
      have hdiag : dist d (d ++ [a]) (i + 1) (i + 1) = 0 := by
        apply dist_diag_zero
        intro k hk
        rw [getD_append_left d [a] k (by omega)]
      omega

/-- Band bound for a single appended element on the dest side. -/
theorem del_band (s : List Nat) (a : Nat) : ∀ i, i ≤ s.length →
    dist (s ++ [a]) s (i + 1) i ≤ 1 := by
  intro i
  induction i with
  | zero => intro _; rw [dist_base_left]
  | succ i ih =>
    intro h
    rw [dist_succ_succ]
    by_cases heq : (s ++ [a]).getD (i + 1) 0 = s.getD i 0
    · rw [if_pos heq]
      exact ih (by omega)
    · rw [if_neg heq]
      have hdiag : dist (s ++ [a]) s (i + 1) (i + 1) = 0 := by
        apply dist_diag_zero
        intro k hk
        rw [getD_append_left s [a] k (by omega)]
      omega

/-- The full-matrix distance of a pair differing by one inserted
element is exactly 1. -/
theorem dist_insert_full (a : Nat) : ∀ ys xs : List Nat,
    dist (xs ++ ys) (xs ++ a :: ys) (xs ++ ys).length (xs ++ a :: ys).length = 1 := by
  intro ys
  induction ys using List.reverseRecOn with
  | nil =>
    intro xs
    simp only [List.append_nil]
    have hsl : (xs ++ [a]).length = xs.length + 1 := by simp
    rw [hsl]
    have h1 : dist xs (xs ++ [a]) xs.length (xs.length + 1) ≤ 1 :=
      ins_band xs a xs.length (le_refl _)
    have h2 : dist xs (xs ++ [a]) xs.length (xs.length + 1) ≠ 0 := by
      intro hz
      have := dist_eq_zero_imp xs (xs ++ [a]) (xs.length + (xs.length + 1))
        xs.length (xs.length + 1) (le_refl _) hz
      omega
    omega
  | append_singleton ys c ih =>
    intro xs
    have hassoc1 : xs ++ (ys ++ [c]) = (xs ++ ys) ++ [c] := by simp
    have hassoc2 : xs ++ a :: (ys ++ [c]) = (xs ++ a :: ys) ++ [c] := by simp
    rw [hassoc1, hassoc2]
    have hl1 : ((xs ++ ys) ++ [c]).length = (xs ++ ys).length + 1 := by simp; omega
    have hl2 : ((xs ++ a :: ys) ++ [c]).length = (xs ++ a :: ys).length + 1 := by simp; omega
    rw [hl1, hl2, dist_succ_succ]
    have hc1 : ((xs ++ ys) ++ [c]).getD (xs ++ ys).length 0 = c := by
      have := getD_append_self (xs ++ ys) c []
      simpa using this
    have hc2 : ((xs ++ a :: ys) ++ [c]).getD (xs ++ a :: ys).length 0 = c := by
      have := getD_append_self (xs ++ a :: ys) c []
      simpa using this
    rw [hc1, hc2, if_pos rfl]
    rw [dist_congr ((xs ++ ys).length + (xs ++ a :: ys).length)
      ((xs ++ ys) ++ [c]) ((xs ++ a :: ys) ++ [c]) (xs ++ ys) (xs ++ a :: ys)
      (xs ++ ys).length (xs ++ a :: ys).length (le_refl _)
      (fun k hk => getD_append_left _ _ _ hk)
      (fun k hk => getD_append_left _ _ _ hk)]
    exact ih xs

/-- The full-matrix distance of a pair differing by one deleted
element is exactly 1. -/
theorem dist_delete_full (a : Nat) : ∀ ys xs : List Nat,
    dist (xs ++ a :: ys) (xs ++ ys) (xs ++ a :: ys).length (xs ++ ys).length = 1 := by
  intro ys
  induction ys using List.reverseRecOn with
  | nil =>
    intro xs
    simp only [List.append_nil]
    have hsl : (xs ++ [a]).length = xs.length + 1 := by simp
    rw [hsl]
    have h1 : dist (xs ++ [a]) xs (xs.length + 1) xs.length ≤ 1 :=
      del_band xs a xs.length (le_refl _)
    have h2 : dist (xs ++ [a]) xs (xs.length + 1) xs.length ≠ 0 := by
      intro hz
      have := dist_eq_zero_imp (xs ++ [a]) xs ((xs.length + 1) + xs.length)
        (xs.length + 1) xs.length (le_refl _) hz
      omega
    omega
  | append_singleton ys c ih =>
    intro xs
    have hassoc1 : xs ++ a :: (ys ++ [c]) = (xs ++ a :: ys) ++ [c] := by simp
    have hassoc2 : xs ++ (ys ++ [c]) = (xs ++ ys) ++ [c] := by simp
    rw [hassoc1, hassoc2]
    have hl1 : ((xs ++ a :: ys) ++ [c]).length = (xs ++ a :: ys).length + 1 := by simp; omega
    have hl2 : ((xs ++ ys) ++ [c]).length = (xs ++ ys).length + 1 := by simp; omega
    rw [hl1, hl2, dist_succ_succ]
    have hc1 : ((xs ++ a :: ys) ++ [c]).getD (xs ++ a :: ys).length 0 = c := by
      have := getD_append_self (xs ++ a :: ys) c []
      simpa using this
    have hc2 : ((xs ++ ys) ++ [c]).getD (xs ++ ys).length 0 = c := by
      have := getD_append_self (xs ++ ys) c []
      simpa using this
    rw [hc1, hc2, if_pos rfl]
    rw [dist_congr ((xs ++ a :: ys).length + (xs ++ ys).length)
      ((xs ++ a :: ys) ++ [c]) ((xs ++ ys) ++ [c]) (xs ++ a :: ys) (xs ++ ys)
      (xs ++ a :: ys).length (xs ++ ys).length (le_refl _)
      (fun k hk => getD_append_left _ _ _ hk)
      (fun k hk => getD_append_left _ _ _ hk)]
    exact ih xs

/-- The full-matrix distance of a pair differing by one replaced
element is exactly 1. -/
theorem dist_replace_full (a b : Nat) (hab : a ≠ b) : ∀ ys xs : List Nat,
    dist (xs ++ a :: ys) (xs ++ b :: ys) (xs ++ a :: ys).length (xs ++ b :: ys).length = 1 := by
  intro ys
  induction ys using List.reverseRecOn with
  | nil =>
    intro xs
    have hl1 : (xs ++ [a]).length = xs.length + 1 := by simp
    have hl2 : (xs ++ [b]).length = xs.length + 1 := by simp
    show dist (xs ++ [a]) (xs ++ [b]) (xs ++ [a]).length (xs ++ [b]).length = 1
    rw [hl1, hl2, dist_succ_succ]
    have hc1 : (xs ++ [a]).getD xs.length 0 = a := getD_append_self xs a []
    have hc2 : (xs ++ [b]).getD xs.length 0 = b := getD_append_self xs b []
    rw [hc1, hc2, if_neg hab]
    have hdiag : dist (xs ++ [a]) (xs ++ [b]) xs.length xs.length = 0 := by
      apply dist_diag_zero
      intro k hk
      rw [getD_append_left xs [a] k hk, getD_append_left xs [b] k hk]
    omega
  | append_singleton ys c ih =>
    intro xs
    have hassoc1 : xs ++ a :: (ys ++ [c]) = (xs ++ a :: ys) ++ [c] := by simp
    have hassoc2 : xs ++ b :: (ys ++ [c]) = (xs ++ b :: ys) ++ [c] := by simp
    rw [hassoc1, hassoc2]
    have hl1 : ((xs ++ a :: ys) ++ [c]).length = (xs ++ a :: ys).length + 1 := by simp; omega
    have hl2 : ((xs ++ b :: ys) ++ [c]).length = (xs ++ b :: ys).length + 1 := by simp; omega
    rw [hl1, hl2, dist_succ_succ]
    have hc1 : ((xs ++ a :: ys) ++ [c]).getD (xs ++ a :: ys).length 0 = c := by
      have := getD_append_self (xs ++ a :: ys) c []
      simpa using this
    have hc2 : ((xs ++ b :: ys) ++ [c]).getD (xs ++ b :: ys).length 0 = c := by
      have := getD_append_self (xs ++ b :: ys) c []
      simpa using this
    rw [hc1, hc2, if_pos rfl]
    rw [dist_congr ((xs ++ a :: ys).length + (xs ++ b :: ys).length)
      ((xs ++ a :: ys) ++ [c]) ((xs ++ b :: ys) ++ [c]) (xs ++ a :: ys) (xs ++ b :: ys)
      (xs ++ a :: ys).length (xs ++ b :: ys).length (le_refl _)
      (fun k hk => getD_append_left _ _ _ hk)
      (fun k hk => getD_append_left _ _ _ hk)]
    exact ih xs

theorem sortEdits_singleton (e : Edit) : sortEdits [e] = [e] := rfl

/-- When the full-matrix edit distance of a pair is 1, vec_edits is a
singleton whose kind satisfies the insert/delete count balance. -/
theorem vec_edits_of_dist_one (d s : List Nat)
    (h : dist d s d.length s.length = 1) :
    ∃ e, vec_edits d s = [e] ∧
      d.length + (if e.isIns then 1 else 0) = s.length + (if e.isDel then 1 else 0) := by
  have hlen : (backtrack d s d.length s.length).length = 1 := by
    rw [backtrack_length d s (d.length + s.length) d.length s.length (le_refl _), h]
  obtain ⟨e, he⟩ := List.length_eq_one.mp hlen
  refine ⟨e, ?_, ?_⟩
  · rw [vec_edits, he]
    rfl
  · have hc := backtrack_counts d s (d.length + s.length) d.length s.length (le_refl _)
    rw [he] at hc
    simpa [List.countP_cons] using hc

/-- C4 (helper): a single insertion yields exactly one Insert edit. -/
theorem vec_edits_insert_single (xs ys : List Nat) (a : Nat) :
    ∃ di si, vec_edits (xs ++ ys) (xs ++ a :: ys) = [Edit.insert di si] := by
  obtain ⟨e, he, hc⟩ := vec_edits_of_dist_one (xs ++ ys) (xs ++ a :: ys)
    (dist_insert_full a ys xs)
  have hlen : (xs ++ a :: ys).length = (xs ++ ys).length + 1 := by
    simp
    omega
  cases e with
  | delete di =>
    exfalso
    rw [hlen] at hc
    simp [Edit.isIns, Edit.isDel] at hc
    omega
  | replace di si =>
    exfalso
    rw [hlen] at hc
    simp [Edit.isIns, Edit.isDel] at hc
  | insert di si => exact ⟨di, si, he⟩

/-- C4 (helper): a single deletion yields exactly one Delete edit. -/
theorem vec_edits_delete_single (xs ys : List Nat) (a : Nat) :
    ∃ di, vec_edits (xs ++ a :: ys) (xs ++ ys) = [Edit.delete di] := by
  obtain ⟨e, he, hc⟩ := vec_edits_of_dist_one (xs ++ a :: ys) (xs ++ ys)
    (dist_delete_full a ys xs)
  have hlen : (xs ++ a :: ys).length = (xs ++ ys).length + 1 := by
    simp
    omega
  cases e with
  | delete di => exact ⟨di, he⟩
  | replace di si =>
    exfalso
    rw [hlen] at hc
    simp [Edit.isIns, Edit.isDel] at hc
  | insert di si =>
    exfalso
    rw [hlen] at hc
    simp [Edit.isIns, Edit.isDel] at hc
    omega

/-- C4 (helper): a single replacement yields exactly one Replace edit. -/
theorem vec_edits_replace_single (xs ys : List Nat) (a b : Nat) (hab : a ≠ b) :
    ∃ di si, vec_edits (xs ++ a :: ys) (xs ++ b :: ys) = [Edit.replace di si] := by
  obtain ⟨e, he, hc⟩ := vec_edits_of_dist_one (xs ++ a :: ys) (xs ++ b :: ys)
    (dist_replace_full a b hab ys xs)
  have hlen : (xs ++ a :: ys).length = (xs ++ b :: ys).length := by
    simp
  cases e with
  | delete di =>
    exfalso
    rw [hlen] at hc
    simp [Edit.isIns, Edit.isDel] at hc
  | replace di si => exact ⟨di, si, he⟩
  | insert di si =>
    exfalso
    rw [hlen] at hc
    simp [Edit.isIns, Edit.isDel] at hc

/-- C4: for sequences that differ by exactly one insertion, one
deletion, or one replacement of a single element, vec_edits returns
exactly one edit and it is of the matching kind: Insert for an
insertion, Delete for a deletion, Replace for a replacement (with the
replaced element actually changed). -/
theorem vec_edits_single_edit_minimality (xs ys : List Nat) (a b : Nat) (hab : a ≠ b) :
    (∃ di si, vec_edits (xs ++ ys) (xs ++ a :: ys) = [Edit.insert di si]) ∧
    (∃ di, vec_edits (xs ++ a :: ys) (xs ++ ys) = [Edit.delete di]) ∧
    (∃ di si, vec_edits (xs ++ a :: ys) (xs ++ b :: ys) = [Edit.replace di si]) :=
  ⟨vec_edits_insert_single xs ys a, vec_edits_delete_single xs ys a,
    vec_edits_replace_single xs ys a b hab⟩

/-- Witness for C4 at a concrete input: dest [5, 7] against sources
[5, 3, 7] (insertion), [5, 7] from [5, 3, 7] (deletion) and
[5, 4, 7] (replacement). -/
theorem vec_edits_single_edit_minimality_witness :
    (∃ di si, vec_edits ([5] ++ [7]) ([5] ++ 3 :: [7]) = [Edit.insert di si]) ∧
    (∃ di, vec_edits ([5] ++ 3 :: [7]) ([5] ++ [7]) = [Edit.delete di]) ∧
    (∃ di si, vec_edits ([5] ++ 3 :: [7]) ([5] ++ 4 :: [7]) = [Edit.replace di si]) :=
  vec_edits_single_edit_minimality [5] [7] 3 4 (by decide)

/-! ## Leaf-driven bottom-up traversal correctness (C8) -/


/-! ### Path infrastructure for the leaf iterator proof (C8) -/

theorem get?_some_mem {α : Type} {l : List α} {i : Nat} {a : α}
    (h : l.get? i = some a) : a ∈ l := by
  obtain ⟨hlt, hget⟩ := List.get?_eq_some.mp h
  rw [← hget]
  exact List.get_mem _ _ _

theorem nodeAtPath_cons (t : Node) (i : Nat) (rest : List Nat) :
    nodeAtPath t (i :: rest) =
      (t.childrenList.get? i).bind (fun c => nodeAtPath c rest) := by
  cases t with
  | mk tid d cs p h =>
    cases cs with
    | none => rfl
    | some l =>
      cases hg : l.get? i with
      | none =>
        rw [List.get?_eq_getElem?] at hg
        simp [nodeAtPath, Node.childrenList, Node.children, List.get?_eq_getElem?, hg]
      | some c =>
        rw [List.get?_eq_getElem?] at hg
        simp [nodeAtPath, Node.childrenList, Node.children, List.get?_eq_getElem?, hg]

theorem nodeAtPath_append (p r : List Nat) : ∀ t : Node,
    nodeAtPath t (p ++ r) = (nodeAtPath t p).bind (fun q => nodeAtPath q r) := by
  induction p with
  | nil => intro t; rfl
  | cons i rest ih =>
    intro t
    rw [List.cons_append, nodeAtPath_cons, nodeAtPath_cons]
    cases t.childrenList.get? i with
    | none => rfl
    | some c =>
      simp only [Option.some_bind]
      exact ih c

theorem nodeAtPath_single (q : Node) (i : Nat) :
    nodeAtPath q [i] = q.childrenList.get? i := by
  rw [nodeAtPath_cons]
  cases q.childrenList.get? i with
  | none => rfl
  | some c => rfl

theorem nodeAtPath_child (t : Node) (p : List Nat) (i : Nat) :
    nodeAtPath t (p ++ [i]) = (nodeAtPath t p).bind (fun q => q.childrenList.get? i) := by
  rw [nodeAtPath_append]
  cases nodeAtPath t p with
  | none => rfl
  | some q =>
    simp only [Option.some_bind]
    exact nodeAtPath_single q i

theorem self_mem_treeNodes (t : Node) : t ∈ treeNodes t := by
  cases t with
  | mk i d cs p h =>
    cases cs with
    | none => rw [treeNodes]; exact List.mem_singleton.mpr rfl
    | some l => rw [treeNodes]; exact List.mem_cons_self _ _

theorem treeNodes_sublist_of_mem : ∀ (cs : List Node) (c : Node), c ∈ cs →
    (treeNodes c).Sublist (treeNodesList cs) := by
  intro cs
  induction cs with
  | nil => intro c hc; cases hc
  | cons d ds ih =>
    intro c hc
    rw [treeNodesList]
    rcases List.mem_cons.mp hc with h | h
    · subst h
      exact (List.sublist_append_left _ _)
    · exact (ih c h).trans (List.sublist_append_right _ _)

theorem mem_treeNodes_of_children (t c : Node) (hc : c ∈ t.childrenList)
    (x : Node) (hx : x ∈ treeNodes c) : x ∈ treeNodes t := by
  cases t with
  | mk i d cs p h =>
    cases cs with
    | none => simp [Node.childrenList, Node.children] at hc
    | some l =>
      rw [treeNodes]
      simp only [Node.childrenList, Node.children, Option.getD_some] at hc
      exact List.mem_cons_of_mem _ ((treeNodes_sublist_of_mem l c hc).mem hx)

theorem mem_treeNodes_of_nodeAtPath : ∀ (p : List Nat) (t q : Node),
    nodeAtPath t p = some q → q ∈ treeNodes t := by
  intro p
  induction p with
  | nil =>
    intro t q h
    rw [nodeAtPath] at h
    cases h
    exact self_mem_treeNodes t
  | cons i rest ih =>
    intro t q h
    rw [nodeAtPath_cons] at h
    cases hg : t.childrenList.get? i with
    | none => rw [hg] at h; cases h
    | some c =>
      rw [hg] at h
      simp only [Option.some_bind] at h
      have hcmem : c ∈ t.childrenList := get?_some_mem hg
      exact mem_treeNodes_of_children t c hcmem q (ih c q h)

theorem allIds_eq_map :
    (∀ t : Node, allIds t = (treeNodes t).map Node.id) ∧
    (∀ l : List Node, allIdsList l = (treeNodesList l).map Node.id) := by
  refine nodeListInduction ?_ ?_ ?_ ?_
  · intro i d p hh _
    rfl
  · intro i d cs p hh ih
    rw [allIds, treeNodes, List.map_cons]
    rw [ih]
    rfl
  · rfl
  · intro c cs hc hcs
    rw [allIdsList, treeNodesList, List.map_append, hc, hcs]

theorem treeSize_eq_length :
    (∀ t : Node, (allIds t).length = treeSize t) ∧
    (∀ l : List Node, (allIdsList l).length = treeSizeList l) := by
  refine nodeListInduction ?_ ?_ ?_ ?_
  · intro i d p hh _
    rfl
  · intro i d cs p hh ih
    rw [allIds, treeSize, List.length_cons, ih, Nat.add_comm]
  · rfl
  · intro c cs hc hcs
    rw [allIdsList, treeSizeList, List.length_append, hc, hcs]

theorem allIds_sublist_of_mem : ∀ (cs : List Node) (c : Node), c ∈ cs →
    (allIds c).Sublist (allIdsList cs) := by
  intro cs
  induction cs with
  | nil => intro c hc; cases hc
  | cons d ds ih =>
    intro c hc
    rw [allIdsList]
    rcases List.mem_cons.mp hc with h | h
    · subst h
      exact (List.sublist_append_left _ _)
    · exact (ih c h).trans (List.sublist_append_right _ _)

theorem self_id_mem_allIds (q : Node) : q.id ∈ allIds q := by
  cases q with
  | mk i d cs p h =>
    cases cs with
    | none => rw [allIds]; exact List.mem_singleton.mpr rfl
    | some l => rw [allIds]; exact List.mem_cons_self _ _

theorem id_mem_allIds_of_nodeAtPath (t : Node) (p : List Nat) (q : Node)
    (h : nodeAtPath t p = some q) : q.id ∈ allIds t := by
  have hq := mem_treeNodes_of_nodeAtPath p t q h
  rw [allIds_eq_map.1]
  exact List.mem_map.mpr ⟨q, hq, rfl⟩

theorem nodup_allIds_child (t : Node) (hnd : (allIds t).Nodup)
    (c : Node) (hc : c ∈ t.childrenList) : (allIds c).Nodup := by
  cases t with
  | mk i d cs p h =>
    cases cs with
    | none => simp [Node.childrenList, Node.children] at hc
    | some l =>
      rw [allIds] at hnd
      simp only [Node.childrenList, Node.children, Option.getD_some] at hc
      exact ((allIds_sublist_of_mem l c hc).nodup (List.Nodup.of_cons hnd))

theorem nodup_allIds_at : ∀ (p : List Nat) (t q : Node), (allIds t).Nodup →
    nodeAtPath t p = some q → (allIds q).Nodup := by
  intro p
  induction p with
  | nil =>
    intro t q hnd h
    rw [nodeAtPath] at h
    cases h
    exact hnd
  | cons i rest ih =>
    intro t q hnd h
    rw [nodeAtPath_cons] at h
    cases hg : t.childrenList.get? i with
    | none => rw [hg] at h; cases h
    | some c =>
      rw [hg] at h
      simp only [Option.some_bind] at h
      have hcmem : c ∈ t.childrenList := get?_some_mem hg
      exact ih c q (nodup_allIds_child t hnd c hcmem) h

theorem allIds_disjoint_of_lt : ∀ (cs : List Node), (allIdsList cs).Nodup →
    ∀ i j ci cj, i < j → cs.get? i = some ci → cs.get? j = some cj →
    ∀ x, x ∈ allIds ci → x ∈ allIds cj → False := by
  intro cs
  induction cs with
  | nil =>
    intro _ i j ci cj _ hi _ _ _ _
    cases i
    all_goals cases hi
  | cons d ds ih =>
    intro hnd i j ci cj hij hi hj x hxi hxj
    rw [allIdsList] at hnd
    cases i with
    | zero =>
      rw [List.get?] at hi
      cases hi
      cases j with
      | zero => omega
      | succ j0 =>
        rw [List.get?] at hj
        have hcj : cj ∈ ds := get?_some_mem hj
        have hsub := (allIds_sublist_of_mem ds cj hcj).subset hxj
        exact (List.disjoint_of_nodup_append hnd) hxi hsub
    | succ i0 =>
      cases j with
      | zero => omega
      | succ j0 =>
        rw [List.get?] at hi hj
        exact ih (List.Nodup.of_append_right hnd) i0 j0 ci cj (by omega) hi hj x hxi hxj

theorem allIds_disjoint_of_ne (cs : List Node) (hnd : (allIdsList cs).Nodup)
    (i j : Nat) (ci cj : Node) (hij : i ≠ j) (hi : cs.get? i = some ci)
    (hj : cs.get? j = some cj) (x : Nat) (hxi : x ∈ allIds ci) (hxj : x ∈ allIds cj) :
    False := by
  rcases Nat.lt_or_ge i j with h | h
  · exact allIds_disjoint_of_lt cs hnd i j ci cj h hi hj x hxi hxj
  · have hlt : j < i := by omega
    exact allIds_disjoint_of_lt cs hnd j i cj ci hlt hj hi x hxj hxi

theorem root_id_not_in_subtree (t : Node) (hnd : (allIds t).Nodup)
    (j : Nat) (cj : Node) (hg : t.childrenList.get? j = some cj)
    (rest : List Nat) (q : Node) (hq : nodeAtPath cj rest = some q) :
    t.id ≠ q.id := by
  cases t with
  | mk ti td tcs tp th =>
    cases tcs with
    | none => simp [Node.childrenList, Node.children, List.get?] at hg
    | some l =>
      simp only [Node.childrenList, Node.children, Option.getD_some] at hg
      rw [allIds] at hnd
      have hmem : q.id ∈ allIds cj := id_mem_allIds_of_nodeAtPath cj rest q hq
      have hsub : q.id ∈ allIdsList l :=
        (allIds_sublist_of_mem l cj (get?_some_mem hg)).subset hmem
      intro he
      rw [List.nodup_cons] at hnd
      exact hnd.1 (by rw [show (Node.mk ti td (some l) tp th).id = ti from rfl] at he; rw [he]; exact hsub)

theorem nodeAtPath_id_inj : ∀ (p : List Nat) (t : Node), (allIds t).Nodup →
    ∀ (q : Node), nodeAtPath t p = some q →
    ∀ (pb : List Nat) (qb : Node), nodeAtPath t pb = some qb →
    q.id = qb.id → p = pb := by
  intro p
  induction p with
  | nil =>
    intro t hnd q hq pb qb hqb hid
    rw [nodeAtPath] at hq
    cases hq
    cases pb with
    | nil => rfl
    | cons j restb =>
      exfalso
      rw [nodeAtPath_cons] at hqb
      cases hg : t.childrenList.get? j with
      | none => rw [hg] at hqb; cases hqb
      | some cj =>
        rw [hg, Option.some_bind] at hqb
        exact root_id_not_in_subtree t hnd j cj hg restb qb hqb hid
  | cons i rest ih =>
    intro t hnd q hq pb qb hqb hid
    rw [nodeAtPath_cons] at hq
    cases hgi : t.childrenList.get? i with
    | none => rw [hgi] at hq; cases hq
    | some ci =>
      rw [hgi, Option.some_bind] at hq
      cases pb with
      | nil =>
        exfalso
        rw [nodeAtPath] at hqb
        cases hqb
        exact root_id_not_in_subtree t hnd i ci hgi rest q hq hid.symm
      | cons j restb =>
        rw [nodeAtPath_cons] at hqb
        cases hgj : t.childrenList.get? j with
        | none => rw [hgj] at hqb; cases hqb
        | some cj =>
          rw [hgj, Option.some_bind] at hqb
          by_cases hij : i = j
          · subst hij
            rw [hgi] at hgj
            cases hgj
            have hndc : (allIds ci).Nodup :=
              nodup_allIds_child t hnd ci (get?_some_mem hgi)
            have := ih ci hndc q hq restb qb hqb hid
            rw [this]
          · exfalso
            cases t with
            | mk ti td tcs tp th =>
              cases tcs with
              | none => simp [Node.childrenList, Node.children, List.get?] at hgi
              | some l =>
                simp only [Node.childrenList, Node.children, Option.getD_some] at hgi hgj
                rw [allIds, List.nodup_cons] at hnd
                exact allIds_disjoint_of_ne l hnd.2 i j ci cj hij hgi hgj q.id
                  (id_mem_allIds_of_nodeAtPath ci rest q hq)
                  (hid ▸ id_mem_allIds_of_nodeAtPath cj restb qb hqb)

theorem nodeAtPath_node_inj (t : Node) (hnd : (allIds t).Nodup)
    (p pb : List Nat) (q qb : Node) (hq : nodeAtPath t p = some q)
    (hqb : nodeAtPath t pb = some qb) (hid : q.id = qb.id) : p = pb ∧ q = qb := by
  have hp := nodeAtPath_id_inj p t hnd q hq pb qb hqb hid
  subst hp
  rw [hq] at hqb
  exact ⟨rfl, Option.some.inj hqb⟩

theorem childIds_nodup : ∀ (cs : List Node), (allIdsList cs).Nodup →
    (cs.map Node.id).Nodup := by
  intro cs
  induction cs with
  | nil => intro _; exact List.nodup_nil
  | cons d ds ih =>
    intro hnd
    rw [allIdsList] at hnd
    rw [List.map_cons, List.nodup_cons]
    constructor
    · intro hmem
      obtain ⟨c, hc, hcid⟩ := List.mem_map.mp hmem
      have h1 : d.id ∈ allIds d := self_id_mem_allIds d
      have h2 : d.id ∈ allIdsList ds := by
        rw [← hcid]
        exact (allIds_sublist_of_mem ds c hc).subset (self_id_mem_allIds c)
      exact (List.disjoint_of_nodup_append hnd) h1 h2
    · exact ih (List.Nodup.of_append_right hnd)

theorem childIds_nodup_at (q : Node) (hnd : (allIds q).Nodup) :
    (q.childrenList.map Node.id).Nodup := by
  cases q with
  | mk i d cs p h =>
    cases cs with
    | none => exact List.nodup_nil
    | some l =>
      rw [allIds, List.nodup_cons] at hnd
      simp only [Node.childrenList, Node.children, Option.getD_some]
      exact childIds_nodup l hnd.2

theorem nodeAtPath_of_child (t : Node) (p : List Nat) (q : Node)
    (hq : nodeAtPath t p = some q) (i : Nat) (c : Node)
    (hc : q.childrenList.get? i = some c) : nodeAtPath t (p ++ [i]) = some c := by
  rw [nodeAtPath_child, hq, Option.some_bind, hc]

theorem parent_unique (t : Node) (hnd : (allIds t).Nodup)
    (p1 p2 : List Nat) (q1 q2 : Node) (i1 i2 : Nat) (c1 c2 : Node)
    (hp1 : nodeAtPath t p1 = some q1) (hc1 : q1.childrenList.get? i1 = some c1)
    (hp2 : nodeAtPath t p2 = some q2) (hc2 : q2.childrenList.get? i2 = some c2)
    (hid : c1.id = c2.id) : p1 = p2 ∧ i1 = i2 ∧ c1 = c2 := by
  have h1 := nodeAtPath_of_child t p1 q1 hp1 i1 c1 hc1
  have h2 := nodeAtPath_of_child t p2 q2 hp2 i2 c2 hc2
  have heq := nodeAtPath_id_inj (p1 ++ [i1]) t hnd c1 h1 (p2 ++ [i2]) c2 h2 hid
  have hp : p1 = p2 := by
    have := congrArg List.dropLast heq
    rwa [List.dropLast_concat, List.dropLast_concat] at this
  subst hp
  have hi : i1 = i2 := by
    have := congrArg (List.drop p1.length) heq
    rw [List.drop_left, List.drop_left] at this
    exact List.singleton_inj.mp this
  subst hi
  rw [hp1] at hp2
  have hq12 := Option.some.inj hp2
  subst hq12
  rw [hc1] at hc2
  exact ⟨rfl, rfl, Option.some.inj hc2⟩


theorem leafPathsFrom_shape :
    (∀ q : Node, ∀ p x, x ∈ leafPathsFrom p q → p <+: x) ∧
    (∀ cs : List Node, ∀ p i x, x ∈ leafPathsFromList p i cs →
      ∃ k r, x = p ++ k :: r ∧ i ≤ k) := by
  refine nodeListInduction
    (P := fun q => ∀ p x, x ∈ leafPathsFrom p q → p <+: x)
    (Q := fun cs => ∀ p i x, x ∈ leafPathsFromList p i cs →
      ∃ k r, x = p ++ k :: r ∧ i ≤ k) ?_ ?_ ?_ ?_
  · intro i d pos hh _ p x hx
    rw [leafPathsFrom] at hx
    rw [List.mem_singleton.mp hx]
  · intro i d cs pos hh ih p x hx
    rw [leafPathsFrom] at hx
    obtain ⟨k, r, hxe, _⟩ := ih p 0 x hx
    rw [hxe]
    exact ⟨k :: r, rfl⟩
  · intro p i x hx
    rw [leafPathsFromList] at hx
    cases hx
  · intro c cs ihc ihcs p i x hx
    rw [leafPathsFromList] at hx
    rcases List.mem_append.mp hx with h | h
    · obtain ⟨str, hstr⟩ := ihc (p ++ [i]) x h
      exact ⟨i, str, by rw [← hstr, List.append_assoc]; rfl, le_refl i⟩
    · obtain ⟨k, r, hxe, hk⟩ := ihcs p (i + 1) x h
      exact ⟨k, r, hxe, by omega⟩

theorem leafPathsFrom_nodup :
    (∀ q : Node, ∀ p, (leafPathsFrom p q).Nodup) ∧
    (∀ cs : List Node, ∀ p i, (leafPathsFromList p i cs).Nodup) := by
  refine nodeListInduction
    (P := fun q => ∀ p, (leafPathsFrom p q).Nodup)
    (Q := fun cs => ∀ p i, (leafPathsFromList p i cs).Nodup) ?_ ?_ ?_ ?_
  · intro i d pos hh _ p
    rw [leafPathsFrom]
    exact List.nodup_singleton p
  · intro i d cs pos hh ih p
    rw [leafPathsFrom]
    exact ih p 0
  · intro p i
    rw [leafPathsFromList]
    exact List.nodup_nil
  · intro c cs ihc ihcs p i
    rw [leafPathsFromList]
    refine List.Nodup.append (ihc (p ++ [i])) (ihcs p (i + 1)) ?_
    intro x hxl hxr
    obtain ⟨s1, hs1⟩ := leafPathsFrom_shape.1 c (p ++ [i]) x hxl
    obtain ⟨k, r, hxe, hk⟩ := leafPathsFrom_shape.2 cs p (i + 1) x hxr
    rw [← hs1, List.append_assoc] at hxe
    have := List.append_cancel_left hxe
    rw [List.singleton_append] at this
    have hik : i = k := (List.cons.injEq _ _ _ _).mp this |>.1
    omega

theorem leafPathsFrom_sound :
    (∀ q : Node, ∀ p x, x ∈ leafPathsFrom p q →
      ∃ r z, x = p ++ r ∧ nodeAtPath q r = some z ∧ z.children = none) ∧
    (∀ cs : List Node, ∀ p i x, x ∈ leafPathsFromList p i cs →
      ∃ k c r z, i ≤ k ∧ cs.get? (k - i) = some c ∧ x = p ++ k :: r ∧
        nodeAtPath c r = some z ∧ z.children = none) := by
  refine nodeListInduction
    (P := fun q => ∀ p x, x ∈ leafPathsFrom p q →
      ∃ r z, x = p ++ r ∧ nodeAtPath q r = some z ∧ z.children = none)
    (Q := fun cs => ∀ p i x, x ∈ leafPathsFromList p i cs →
      ∃ k c r z, i ≤ k ∧ cs.get? (k - i) = some c ∧ x = p ++ k :: r ∧
        nodeAtPath c r = some z ∧ z.children = none) ?_ ?_ ?_ ?_
  · intro i d pos hh _ p x hx
    rw [leafPathsFrom] at hx
    refine ⟨[], Node.mk i d none pos hh, ?_, rfl, rfl⟩
    rw [List.mem_singleton.mp hx, List.append_nil]
  · intro i d cs pos hh ih p x hx
    rw [leafPathsFrom] at hx
    obtain ⟨k, c, r, z, _, hget, hxe, hz, hzc⟩ := ih p 0 x hx
    refine ⟨k :: r, z, hxe, ?_, hzc⟩
    rw [nodeAtPath_cons]
    have : (Node.mk i d (some cs) pos hh).childrenList = cs := rfl
    rw [this]
    rw [Nat.sub_zero] at hget
    rw [hget, Option.some_bind]
    exact hz
  · intro p i x hx
    rw [leafPathsFromList] at hx
    cases hx
  · intro c cs ihc ihcs p i x hx
    rw [leafPathsFromList] at hx
    rcases List.mem_append.mp hx with h | h
    · obtain ⟨r, z, hxe, hz, hzc⟩ := ihc (p ++ [i]) x h
      refine ⟨i, c, r, z, le_refl i, ?_, ?_, hz, hzc⟩
      · rw [Nat.sub_self]
        rfl
      · rw [hxe, List.append_assoc]
        rfl
    · obtain ⟨k, cx, r, z, hk, hget, hxe, hz, hzc⟩ := ihcs p (i + 1) x h
      refine ⟨k, cx, r, z, by omega, ?_, hxe, hz, hzc⟩
      have hki : k - i = (k - (i + 1)) + 1 := by omega
      rw [hki]
      rw [List.get?]
      exact hget

theorem leafPathsFromList_complete : ∀ (cs : List Node) (i k : Nat) (c : Node),
    cs.get? k = some c → ∀ (p y : List Nat),
    y ∈ leafPathsFrom (p ++ [i + k]) c → y ∈ leafPathsFromList p i cs := by
  intro cs
  induction cs with
  | nil =>
    intro i k c hgk p y hy
    exact absurd hgk (by simp [List.get?])
  | cons d ds ih =>
    intro i k c hgk p y hy
    rw [leafPathsFromList]
    cases k with
    | zero =>
      rw [List.get?] at hgk
      cases hgk
      rw [Nat.add_zero] at hy
      exact List.mem_append_left _ hy
    | succ k0 =>
      rw [List.get?] at hgk
      refine List.mem_append_right _ (ih (i + 1) k0 c hgk p y ?_)
      rw [show i + 1 + k0 = i + (k0 + 1) from by omega]
      exact hy

theorem leafPathsFrom_complete : ∀ (r : List Nat) (q : Node) (z : Node),
    nodeAtPath q r = some z → z.children = none →
    ∀ p, p ++ r ∈ leafPathsFrom p q := by
  intro r
  induction r with
  | nil =>
    intro q z hq hzc p
    rw [nodeAtPath] at hq
    cases hq
    rw [List.append_nil]
    cases q with
    | mk i d cs pos hh =>
      cases cs with
      | none =>
        rw [leafPathsFrom]
        exact List.mem_singleton.mpr rfl
      | some l => cases hzc
  | cons k r0 ih =>
    intro q z hq hzc p
    rw [nodeAtPath_cons] at hq
    cases hg : q.childrenList.get? k with
    | none => rw [hg] at hq; cases hq
    | some c =>
      rw [hg, Option.some_bind] at hq
      cases q with
      | mk i d cs pos hh =>
        cases cs with
        | none => simp [Node.childrenList, Node.children, List.get?] at hg
        | some l =>
          rw [leafPathsFrom]
          simp only [Node.childrenList, Node.children, Option.getD_some] at hg
          refine leafPathsFromList_complete l 0 k c hg p (p ++ k :: r0) ?_
          rw [Nat.zero_add]
          have := ih c z hq hzc (p ++ [k])
          rw [List.append_assoc] at this
          exact this

theorem leafPathsFrom_ne_nil :
    (∀ q : Node, (∀ z ∈ treeNodes q, noEmptyChildrenB z = true) →
      ∀ p, leafPathsFrom p q ≠ []) ∧
    (∀ cs : List Node, (∀ z ∈ treeNodesList cs, noEmptyChildrenB z = true) →
      cs ≠ [] → ∀ p i, leafPathsFromList p i cs ≠ []) := by
  refine nodeListInduction
    (P := fun q => (∀ z ∈ treeNodes q, noEmptyChildrenB z = true) →
      ∀ p, leafPathsFrom p q ≠ [])
    (Q := fun cs => (∀ z ∈ treeNodesList cs, noEmptyChildrenB z = true) →
      cs ≠ [] → ∀ p i, leafPathsFromList p i cs ≠ []) ?_ ?_ ?_ ?_
  · intro i d pos hh _ _ p
    rw [leafPathsFrom]
    exact List.cons_ne_nil p []
  · intro i d cs pos hh ih hne p
    rw [leafPathsFrom]
    have hself := hne (Node.mk i d (some cs) pos hh) (self_mem_treeNodes _)
    have hcs : cs ≠ [] := by
      intro he
      subst he
      rw [noEmptyChildrenB] at hself
      cases hself
    refine ih ?_ hcs p 0
    intro z hz
    refine hne z ?_
    rw [treeNodes]
    exact List.mem_cons_of_mem _ hz
  · intro _ hne
    exact absurd rfl hne
  · intro c cs ihc ihcs hne _ p i
    rw [leafPathsFromList]
    intro happ
    have hl := List.append_eq_nil.mp happ
    refine ihc ?_ (p ++ [i]) hl.1
    intro z hz
    refine hne z ?_
    rw [treeNodesList]
    exact List.mem_append_left _ hz

theorem treeNodes_trans :
    (∀ t : Node, ∀ q ∈ treeNodes t, ∀ z ∈ treeNodes q, z ∈ treeNodes t) ∧
    (∀ cs : List Node, ∀ q ∈ treeNodesList cs, ∀ z ∈ treeNodes q, z ∈ treeNodesList cs) := by
  refine nodeListInduction
    (P := fun t => ∀ q ∈ treeNodes t, ∀ z ∈ treeNodes q, z ∈ treeNodes t)
    (Q := fun cs => ∀ q ∈ treeNodesList cs, ∀ z ∈ treeNodes q, z ∈ treeNodesList cs)
    ?_ ?_ ?_ ?_
  · intro i d pos hh _ q hq z hz
    rw [treeNodes] at hq
    rw [List.mem_singleton.mp hq] at hz
    exact hz
  · intro i d cs pos hh ih q hq z hz
    rw [treeNodes] at hq
    rcases List.mem_cons.mp hq with h | h
    · rw [h] at hz
      exact hz
    · rw [treeNodes]
      exact List.mem_cons_of_mem _ (ih q h z hz)
  · intro q hq
    rw [treeNodesList] at hq
    cases hq
  · intro c cs ihc ihcs q hq z hz
    rw [treeNodesList] at hq
    rw [treeNodesList]
    rcases List.mem_append.mp hq with h | h
    · exact List.mem_append_left _ (ihc q h z hz)
    · exact List.mem_append_right _ (ihcs q h z hz)

theorem idAt_eq (t : Node) (p : List Nat) (q : Node) (h : nodeAtPath t p = some q) :
    idAt t p = q.id := by
  rw [idAt, h]
  rfl

theorem numChildrenAt_eq (t : Node) (p : List Nat) (q : Node) (h : nodeAtPath t p = some q) :
    numChildrenAt t p = q.num_children := by
  rw [numChildrenAt, h]
  rfl

theorem num_children_eq_length (q : Node) : q.num_children = q.childrenList.length := by
  cases q with
  | mk i d cs p h =>
    cases cs with
    | none => rfl
    | some l => rfl

/-! ### Queue step lemmas -/

theorem popNext_none (s : LeafIterState) (h : s.queue ++ s.next = []) :
    popNext s = none := by
  obtain ⟨h1, h2⟩ := List.append_eq_nil.mp h
  rw [popNext]
  simp [h1, h2]

theorem popNext_some (s : LeafIterState) (p : List Nat) (rest : List (List Nat))
    (h : s.queue ++ s.next = p :: rest) :
    ∃ s1, popNext s = some (p, s1) ∧ s1.queue ++ s1.next = rest ∧
      s1.visited = s.visited ∧ s1.childrenVisited = s.childrenVisited := by
  cases hq : s.queue with
  | nil =>
    rw [hq, List.nil_append] at h
    refine ⟨{ s with queue := rest, next := [] }, ?_, by simp, rfl, rfl⟩
    rw [popNext]
    simp [hq, h]
  | cons p0 q0 =>
    rw [hq, List.cons_append] at h
    have hp : p0 = p := (List.cons.injEq _ _ _ _).mp h |>.1
    have hrest : q0 ++ s.next = rest := (List.cons.injEq _ _ _ _).mp h |>.2
    refine ⟨{ s with queue := q0 }, ?_, by simp [hrest], rfl, rfl⟩
    rw [popNext]
    simp [hq, hp]

theorem deferNode_queues (s : LeafIterState) (p : List Nat) :
    (deferNode s p).queue ++ (deferNode s p).next = (s.queue ++ s.next) ++ [p] := by
  rw [deferNode]
  cases hq : s.queue with
  | nil => simp [hq]
  | cons a l => simp [hq]

theorem deferNode_visited (s : LeafIterState) (p : List Nat) :
    (deferNode s p).visited = s.visited := by
  rw [deferNode]
  cases hq : s.queue with
  | nil => simp
  | cons a l => simp

theorem deferNode_cv (s : LeafIterState) (p : List Nat) :
    (deferNode s p).childrenVisited = s.childrenVisited := by
  rw [deferNode]
  cases hq : s.queue with
  | nil => simp
  | cons a l => simp

/-! ### The loop invariant -/


theorem leafPaths_valid (t : Node) (p : List Nat) (hp : p ∈ leafPaths t) :
    ∃ z, nodeAtPath t p = some z ∧ z.children = none := by
  obtain ⟨r, z, hpe, hz, hzc⟩ := leafPathsFrom_sound.1 t [] p hp
  rw [List.nil_append] at hpe
  subst hpe
  exact ⟨z, hz, hzc⟩

theorem leafInv_init (t : Node) (hnd : (allIds t).Nodup)
    (hne : ∀ z ∈ treeNodes t, noEmptyChildrenB z = true) :
    LeafInv t (LeafIter.new t (leafPaths t)) [] := by
  have hqn : (LeafIter.new t (leafPaths t)).queue = (leafPaths t).reverse := rfl
  have hnn : (LeafIter.new t (leafPaths t)).next = [] := rfl
  have hvn : (LeafIter.new t (leafPaths t)).visited = (leafPaths t).reverse.map (idAt t) := rfl
  have hcvn : (LeafIter.new t (leafPaths t)).childrenVisited = fun _ => [] := rfl
  have hvalid : ∀ p ∈ (leafPaths t).reverse, ∃ z, nodeAtPath t p = some z ∧ z.children = none := by
    intro p hp
    exact leafPaths_valid t p (List.mem_reverse.mp hp)
  refine ⟨?_, ?_, ?_, ?_, ?_, ?_, ?_, ?_⟩
  · intro p hp
    rw [hqn, hnn, List.append_nil] at hp
    obtain ⟨z, hz, _⟩ := hvalid p hp
    exact ⟨z, hz⟩
  · rw [hqn, hnn, List.append_nil, List.nil_append]
    refine List.Nodup.map_on ?_ (List.nodup_reverse.mpr (leafPathsFrom_nodup.1 t []))
    intro x hx y hy hxy
    obtain ⟨zx, hzx, _⟩ := hvalid x hx
    obtain ⟨zy, hzy, _⟩ := hvalid y hy
    rw [idAt_eq t x zx hzx, idAt_eq t y zy hzy] at hxy
    exact nodeAtPath_id_inj x t hnd zx hzx y zy hzy hxy
  · intro x
    rw [hqn, hnn, hvn, List.append_nil]
    simp
  · intro x hx
    cases hx
  · intro y x
    rw [hcvn]
    simp
  · intro y
    rw [hcvn]
    exact List.nodup_nil
  · intro i h
    cases h
  · intro p q hq hnv
    rw [hvn] at hnv
    rw [hqn, hnn, List.append_nil]
    have hqc : q.children ≠ none := by
      intro hcn
      refine hnv ?_
      have hpl : p ∈ leafPaths t := by
        have := leafPathsFrom_complete p t q hq hcn []
        rw [List.nil_append] at this
        exact this
      exact List.mem_map.mpr ⟨p, List.mem_reverse.mpr hpl, (idAt_eq t p q hq).symm ▸ rfl⟩
    cases hqcs : q.children with
    | none => exact absurd hqcs hqc
    | some cs =>
      have hmemq : q ∈ treeNodes t := mem_treeNodes_of_nodeAtPath p t q hq
      have hcs : cs ≠ [] := by
        intro he
        have := hne q hmemq
        rw [noEmptyChildrenB, hqcs, he] at this
        cases this
      cases hcs0 : cs with
      | nil => exact absurd hcs0 hcs
      | cons c0 cs0 =>
        have hg0 : q.childrenList.get? 0 = some c0 := by
          rw [Node.childrenList, hqcs, hcs0]
          rfl
        have hc0t : c0 ∈ treeNodes t := by
          refine treeNodes_trans.1 t q hmemq c0 ?_
          refine mem_treeNodes_of_children q c0 ?_ c0 (self_mem_treeNodes c0)
          rw [Node.childrenList, hqcs, hcs0]
          exact List.mem_cons_self _ _
        have hnec0 : ∀ z ∈ treeNodes c0, noEmptyChildrenB z = true := by
          intro z hz
          exact hne z (treeNodes_trans.1 t c0 hc0t z hz)
        have hlp : leafPathsFrom (p ++ [0]) c0 ≠ [] :=
          leafPathsFrom_ne_nil.1 c0 hnec0 (p ++ [0])
        obtain ⟨y, hy⟩ := List.exists_mem_of_ne_nil _ hlp
        obtain ⟨r, z, hye, hzc0, hzn⟩ := leafPathsFrom_sound.1 c0 (p ++ [0]) y hy
        have hzt : nodeAtPath t y = some z := by
          rw [hye, List.append_assoc, nodeAtPath_append, hq, Option.some_bind,
            List.singleton_append, nodeAtPath_cons, hg0, Option.some_bind]
          exact hzc0
        have hyl : y ∈ leafPaths t := by
          have := leafPathsFrom_complete y t z hzt hzn []
          rw [List.nil_append] at this
          exact this
        refine ⟨y, List.mem_reverse.mpr hyl, ?_, ?_⟩
        · rw [hye, List.append_assoc]
          exact ⟨[0] ++ r, rfl⟩
        · rw [hye]
          rw [List.length_append, List.length_append]
          simp only [List.length_singleton]
          omega

theorem insertSet_mem (a : Nat) (l : List Nat) (x : Nat) :
    x ∈ insertSet a l ↔ x = a ∨ x ∈ l := by
  rw [insertSet]
  by_cases h : a ∈ l
  · rw [if_pos h]
    constructor
    · intro hx
      exact Or.inr hx
    · intro hx
      rcases hx with hx | hx
      · rw [hx]
        exact h
      · exact hx
  · rw [if_neg h]
    exact List.mem_cons

theorem insertSet_nodup (a : Nat) (l : List Nat) (h : l.Nodup) :
    (insertSet a l).Nodup := by
  rw [insertSet]
  by_cases ha : a ∈ l
  · rw [if_pos ha]
    exact h
  · rw [if_neg ha]
    exact List.nodup_cons.mpr ⟨ha, h⟩

theorem mem_of_subset_nodup_length {l m : List Nat} (hl : l.Nodup)
    (hsub : ∀ x ∈ l, x ∈ m) (hlen : m.length ≤ l.length) :
    ∀ x ∈ m, x ∈ l := by
  have hsp : l.Subperm m := List.subperm_of_subset hl hsub
  have hperm : l.Perm m := hsp.perm_of_length_le hlen
  intro x hx
  exact hperm.mem_iff.mpr hx

theorem prefix_eq_of_length {p1 p2 q : List Nat} (h1 : p1 <+: q) (h2 : p2 <+: q)
    (hlen : p1.length = p2.length) : p1 = p2 := by
  rw [List.prefix_iff_eq_take.mp h1, List.prefix_iff_eq_take.mp h2, hlen]

/-! ### Invariant preservation: the defer step -/

theorem leafInv_defer (t : Node) (s s1 : LeafIterState) (acc : List Nat)
    (p : List Nat) (rest : List (List Nat))
    (hinv : LeafInv t s acc)
    (hsplit : s.queue ++ s.next = p :: rest)
    (hs1 : s1.queue ++ s1.next = rest) (hs1v : s1.visited = s.visited)
    (hs1cv : s1.childrenVisited = s.childrenVisited) :
    LeafInv t (deferNode s1 p) acc := by
  have hcq : (deferNode s1 p).queue ++ (deferNode s1 p).next = rest ++ [p] := by
    rw [deferNode_queues, hs1]
  have hcv : (deferNode s1 p).childrenVisited = s.childrenVisited := by
    rw [deferNode_cv, hs1cv]
  have hvis : (deferNode s1 p).visited = s.visited := by
    rw [deferNode_visited, hs1v]
  have hmemiff : ∀ x : List Nat, x ∈ rest ++ [p] ↔ x ∈ p :: rest := by
    intro x
    constructor
    · intro hx
      rcases List.mem_append.mp hx with h | h
      · exact List.mem_cons_of_mem _ h
      · rw [List.mem_singleton.mp h]
        exact List.mem_cons_self _ _
    · intro hx
      rcases List.mem_cons.mp hx with h | h
      · rw [h]
        exact List.mem_append_right _ (List.mem_singleton.mpr rfl)
      · exact List.mem_append_left _ h
  have hperm : ((rest ++ [p]).map (idAt t)).Perm ((p :: rest).map (idAt t)) :=
    (List.perm_append_singleton p rest).map (idAt t)
  refine ⟨?_, ?_, ?_, hinv.calledTree, ?_, ?_, hinv.ordering, ?_⟩
  · intro x hx
    rw [hcq] at hx
    exact hinv.validQ x (hsplit ▸ (hmemiff x).mp hx)
  · rw [hcq]
    refine ((hperm.append_left acc).nodup_iff).mpr ?_
    rw [← hsplit]
    exact hinv.nodupIds
  · intro x
    rw [hvis, hcq]
    rw [hinv.visitedIff x, hsplit]
    constructor
    · intro hx
      rcases hx with hx | hx
      · exact Or.inl hx
      · exact Or.inr (hperm.mem_iff.mpr hx)
    · intro hx
      rcases hx with hx | hx
      · exact Or.inl hx
      · exact Or.inr (hperm.mem_iff.mp hx)
  · intro y x
    rw [hcv]
    exact hinv.cvSpec y x
  · intro y
    rw [hcv]
    exact hinv.cvNodup y
  · intro pc qc hqc hnv
    rw [hvis] at hnv
    obtain ⟨pw, hpw, hpre, hlen⟩ := hinv.reach pc qc hqc hnv
    rw [hsplit] at hpw
    refine ⟨pw, ?_, hpre, hlen⟩
    rw [hcq]
    exact (hmemiff pw).mpr hpw

/-! ### Invariant preservation: calling the visitor on the root -/

theorem leafInv_call_root (t : Node) (hnd : (allIds t).Nodup)
    (s s1 : LeafIterState) (acc : List Nat) (rest : List (List Nat))
    (hinv : LeafInv t s acc)
    (hsplit : s.queue ++ s.next = [] :: rest)
    (hs1 : s1.queue ++ s1.next = rest) (hs1v : s1.visited = s.visited)
    (hs1cv : s1.childrenVisited = s.childrenVisited)
    (hready : numChildrenAt t [] = (s1.childrenVisited (idAt t [])).length) :
    LeafInv t s1 (acc ++ [idAt t []]) := by
  have hroot : nodeAtPath t [] = some t := rfl
  have hnid : idAt t [] = t.id := idAt_eq t [] t hroot
  have hn := hinv.nodupIds
  rw [hsplit, List.map_cons] at hn
  have hnotacc : t.id ∉ acc := by
    intro hmem
    refine (List.disjoint_of_nodup_append hn) hmem ?_
    rw [hnid]
    exact List.mem_cons_self _ _
  refine ⟨?_, ?_, ?_, ?_, ?_, ?_, ?_, ?_⟩
  · intro x hx
    rw [hs1] at hx
    refine hinv.validQ x ?_
    rw [hsplit]
    exact List.mem_cons_of_mem _ hx
  · rw [hs1, List.append_assoc, List.singleton_append]
    exact hn
  · intro x
    rw [hs1v, hs1, hinv.visitedIff x, hsplit, List.map_cons]
    simp only [List.mem_append, List.mem_cons, List.mem_singleton, List.not_mem_nil,
      or_false]
    tauto
  · intro x hx
    rcases List.mem_append.mp hx with h | h
    · exact hinv.calledTree x h
    · rw [List.mem_singleton.mp h]
      exact ⟨[], t, hroot, hnid.symm⟩
  · intro y x
    rw [hs1cv]
    rw [hinv.cvSpec y x]
    constructor
    · intro ⟨hxa, hrest⟩
      exact ⟨List.mem_append_left _ hxa, hrest⟩
    · intro ⟨hxa, p1, q1, i1, c1, hp1, hq1y, hc1, hcid⟩
      rcases List.mem_append.mp hxa with h | h
      · exact ⟨h, p1, q1, i1, c1, hp1, hq1y, hc1, hcid⟩
      · exfalso
        rw [List.mem_singleton.mp h, hnid] at hcid
        have hch := nodeAtPath_of_child t p1 q1 hp1 i1 c1 hc1
        have := nodeAtPath_id_inj (p1 ++ [i1]) t hnd c1 hch [] t hroot hcid
        exact absurd (List.append_eq_nil.mp this).2 (List.cons_ne_nil _ _)
  · intro y
    rw [hs1cv]
    exact hinv.cvNodup y
  · intro i h p1 q1 hp1 hq1id c hc
    have hlen2 : i < acc.length + 1 := by
      have hx := h
      rwa [List.length_append, List.length_singleton] at hx
    by_cases hi : i < acc.length
    · have hget : (acc ++ [idAt t []]).get ⟨i, by rw [List.length_append]; omega⟩ =
          acc.get ⟨i, hi⟩ := by
        rw [List.get_eq_getElem, List.get_eq_getElem]
        exact List.getElem_append_left hi
      rw [hget] at hq1id
      have := hinv.ordering i hi p1 q1 hp1 hq1id c hc
      rwa [List.take_append_of_le_length (by omega)]
    · have hieq : i = acc.length := by omega
      subst hieq
      have hget : (acc ++ [idAt t []]).get ⟨acc.length, h⟩ = idAt t [] := by
        rw [List.get_eq_getElem]
        exact List.getElem_concat_length acc _ _ rfl _
      rw [hget, hnid] at hq1id
      obtain ⟨hpeq, hqeq⟩ := nodeAtPath_node_inj t hnd p1 [] q1 t hp1 hroot hq1id
      rw [hqeq] at hc
      rw [List.take_append_of_le_length (le_refl _), List.take_length]
      have hexp : t.num_children = (s.childrenVisited t.id).length := by
        rw [numChildrenAt_eq t [] t hroot, hs1cv, hnid] at hready
        exact hready
      have hsubchild : ∀ x ∈ s.childrenVisited t.id, x ∈ t.childrenList.map Node.id := by
        intro x hx
        obtain ⟨hxa, p2, q2, i2, c2, hp2, hq2, hc2, hcid2⟩ := (hinv.cvSpec t.id x).mp hx
        obtain ⟨hp2e, hq2e⟩ := nodeAtPath_node_inj t hnd p2 [] q2 t hp2 hroot hq2
        rw [hq2e] at hc2
        rw [← hcid2]
        exact List.mem_map.mpr ⟨c2, get?_some_mem hc2, rfl⟩
      have hfull : ∀ x ∈ t.childrenList.map Node.id, x ∈ s.childrenVisited t.id := by
        refine mem_of_subset_nodup_length (hinv.cvNodup t.id) hsubchild ?_
        rw [List.length_map, ← num_children_eq_length, hexp]
      have hmemcv : c.id ∈ s.childrenVisited t.id :=
        hfull c.id (List.mem_map.mpr ⟨c, hc, rfl⟩)
      exact ((hinv.cvSpec t.id c.id).mp hmemcv).1
  · intro pc qc hqc hnv
    rw [hs1v] at hnv
    obtain ⟨pw, hpw, hpre, hlen⟩ := hinv.reach pc qc hqc hnv
    rw [hsplit] at hpw
    rcases List.mem_cons.mp hpw with h | h
    · exfalso
      rw [h, List.length_nil] at hlen
      omega
    · rw [hs1]
      exact ⟨pw, h, hpre, hlen⟩

/-! ### Invariant preservation: calling the visitor on a non-root node -/

theorem leafInv_call_child (t : Node) (hnd : (allIds t).Nodup)
    (s s1 : LeafIterState) (acc : List Nat) (p : List Nat) (rest : List (List Nat))
    (hinv : LeafInv t s acc) (hp : p ≠ [])
    (hsplit : s.queue ++ s.next = p :: rest)
    (hs1 : s1.queue ++ s1.next = rest) (hs1v : s1.visited = s.visited)
    (hs1cv : s1.childrenVisited = s.childrenVisited)
    (hready : numChildrenAt t p = (s1.childrenVisited (idAt t p)).length) :
    LeafInv t
      (if (idAt t p.dropLast) ∈ (markChildVisited s1 (idAt t p.dropLast) (idAt t p)).visited
       then markChildVisited s1 (idAt t p.dropLast) (idAt t p)
       else { markChildVisited s1 (idAt t p.dropLast) (idAt t p) with
          visited := (idAt t p.dropLast) ::
            (markChildVisited s1 (idAt t p.dropLast) (idAt t p)).visited,
          next := (markChildVisited s1 (idAt t p.dropLast) (idAt t p)).next ++ [p.dropLast] })
      (acc ++ [idAt t p]) := by
  obtain ⟨q, hq⟩ := hinv.validQ p (by rw [hsplit]; exact List.mem_cons_self _ _)
  have hnid : idAt t p = q.id := idAt_eq t p q hq
  have hdecomp : p.dropLast ++ [p.getLast hp] = p := List.dropLast_append_getLast hp
  have hsplitp := hq
  rw [← hdecomp, nodeAtPath_child] at hsplitp
  cases hqp : nodeAtPath t p.dropLast with
  | none =>
    rw [hqp, Option.none_bind] at hsplitp
    cases hsplitp
  | some qp =>
    rw [hqp, Option.some_bind] at hsplitp
    have hpid : idAt t p.dropLast = qp.id := idAt_eq t p.dropLast qp hqp
    have hqmem : q ∈ qp.childrenList := get?_some_mem hsplitp
    have hm := hinv.nodupIds
    rw [hsplit, List.map_cons, hnid] at hm
    have hnotacc : q.id ∉ acc := by
      intro hmem
      exact (List.disjoint_of_nodup_append hm) hmem (List.mem_cons_self _ _)
    have hne_ids : q.id ≠ qp.id := by
      intro he
      have hpe := nodeAtPath_id_inj p t hnd q hq p.dropLast qp hqp he
      have hlenp := congrArg List.length hpe
      rw [List.length_dropLast] at hlenp
      have hppos : 0 < p.length := List.length_pos.mpr hp
      omega
    have hcvmark : ∀ y,
        (markChildVisited s1 (idAt t p.dropLast) (idAt t p)).childrenVisited y =
        if y = qp.id then insertSet q.id (s.childrenVisited qp.id)
        else s.childrenVisited y := by
      intro y
      show (if y = idAt t p.dropLast then
          insertSet (idAt t p) (s1.childrenVisited (idAt t p.dropLast))
        else s1.childrenVisited y) = _
      rw [hs1cv, hnid, hpid]
    have hcv : ∀ y x,
        x ∈ (markChildVisited s1 (idAt t p.dropLast) (idAt t p)).childrenVisited y ↔
        (x ∈ acc ++ [idAt t p] ∧ ∃ p2 q2 i2 c2, nodeAtPath t p2 = some q2 ∧ q2.id = y ∧
          q2.childrenList.get? i2 = some c2 ∧ c2.id = x) := by
      intro y x
      rw [hcvmark y, hnid]
      by_cases hy : y = qp.id
      · subst hy
        rw [if_pos rfl, insertSet_mem]
        constructor
        · intro hx
          rcases hx with hx | hx
          · subst hx
            exact ⟨List.mem_append_right _ (List.mem_singleton.mpr rfl),
              p.dropLast, qp, p.getLast hp, q, hqp, rfl, hsplitp, rfl⟩
          · obtain ⟨hxa, w⟩ := (hinv.cvSpec qp.id x).mp hx
            exact ⟨List.mem_append_left _ hxa, w⟩
        · rintro ⟨hxa, p2, q2, i2, c2, hp2, hq2y, hc2, hcid⟩
          rcases List.mem_append.mp hxa with hxacc | hxnew
          · exact Or.inr ((hinv.cvSpec qp.id x).mpr
              ⟨hxacc, p2, q2, i2, c2, hp2, hq2y, hc2, hcid⟩)
          · exact Or.inl (List.mem_singleton.mp hxnew)
      · rw [if_neg hy]
        constructor
        · intro hx
          obtain ⟨hxa, w⟩ := (hinv.cvSpec y x).mp hx
          exact ⟨List.mem_append_left _ hxa, w⟩
        · rintro ⟨hxa, p2, q2, i2, c2, hp2, hq2y, hc2, hcid⟩
          rcases List.mem_append.mp hxa with hxacc | hxnew
          · exact (hinv.cvSpec y x).mpr ⟨hxacc, p2, q2, i2, c2, hp2, hq2y, hc2, hcid⟩
          · exfalso
            have hxq : x = q.id := List.mem_singleton.mp hxnew
            rw [hxq] at hcid
            obtain ⟨hpe, hie, hce⟩ := parent_unique t hnd p2 p.dropLast q2 qp i2
              (p.getLast hp) c2 q hp2 hc2 hqp hsplitp hcid
            rw [hpe, hqp] at hp2
            have := Option.some.inj hp2
            rw [← this] at hq2y
            exact hy hq2y.symm
    have hcvn : ∀ y,
        ((markChildVisited s1 (idAt t p.dropLast) (idAt t p)).childrenVisited y).Nodup := by
      intro y
      rw [hcvmark y]
      by_cases hy : y = qp.id
      · rw [if_pos hy]
        exact insertSet_nodup _ _ (hinv.cvNodup qp.id)
      · rw [if_neg hy]
        exact hinv.cvNodup y
    have hcalled : ∀ x ∈ acc ++ [idAt t p],
        ∃ pz qz, nodeAtPath t pz = some qz ∧ qz.id = x := by
      intro x hx
      rcases List.mem_append.mp hx with h | h
      · exact hinv.calledTree x h
      · rw [List.mem_singleton.mp h]
        exact ⟨p, q, hq, hnid.symm⟩
    have hvalidr : ∀ x ∈ rest, ∃ qz, nodeAtPath t x = some qz := by
      intro x hx
      refine hinv.validQ x ?_
      rw [hsplit]
      exact List.mem_cons_of_mem _ hx
    have hord : ∀ i (h : i < (acc ++ [idAt t p]).length) p1 q1,
        nodeAtPath t p1 = some q1 → q1.id = (acc ++ [idAt t p]).get ⟨i, h⟩ →
        ∀ c ∈ q1.childrenList, c.id ∈ (acc ++ [idAt t p]).take i := by
      intro i h p1 q1 hp1 hq1id c hc
      have hlen2 : i < acc.length + 1 := by
        have hx := h
        rwa [List.length_append, List.length_singleton] at hx
      by_cases hi : i < acc.length
      · have hget : (acc ++ [idAt t p]).get ⟨i, h⟩ = acc.get ⟨i, hi⟩ := by
          rw [List.get_eq_getElem, List.get_eq_getElem]
          exact List.getElem_append_left hi
        rw [hget] at hq1id
        have := hinv.ordering i hi p1 q1 hp1 hq1id c hc
        rwa [List.take_append_of_le_length (by omega)]
      · have hieq : i = acc.length := by omega
        subst hieq
        have hget : (acc ++ [idAt t p]).get ⟨acc.length, h⟩ = idAt t p := by
          rw [List.get_eq_getElem]
          exact List.getElem_concat_length acc _ _ rfl _
        rw [hget, hnid] at hq1id
        obtain ⟨hpeq, hqeq⟩ := nodeAtPath_node_inj t hnd p1 p q1 q hp1 hq hq1id
        rw [hqeq] at hc
        rw [List.take_append_of_le_length (le_refl _), List.take_length]
        have hexp : q.num_children = (s.childrenVisited q.id).length := by
          rw [numChildrenAt_eq t p q hq, hs1cv, hnid] at hready
          exact hready
        have hsubchild : ∀ x ∈ s.childrenVisited q.id, x ∈ q.childrenList.map Node.id := by
          intro x hx
          obtain ⟨hxa, p2, q2, i2, c2, hp2, hq2, hc2, hcid2⟩ := (hinv.cvSpec q.id x).mp hx
          obtain ⟨hp2e, hq2e⟩ := nodeAtPath_node_inj t hnd p2 p q2 q hp2 hq hq2
          rw [hq2e] at hc2
          rw [← hcid2]
          exact List.mem_map.mpr ⟨c2, get?_some_mem hc2, rfl⟩
        have hfull : ∀ x ∈ q.childrenList.map Node.id, x ∈ s.childrenVisited q.id := by
          refine mem_of_subset_nodup_length (hinv.cvNodup q.id) hsubchild ?_
          rw [List.length_map, ← num_children_eq_length, hexp]
        have hmemcv : c.id ∈ s.childrenVisited q.id :=
          hfull c.id (List.mem_map.mpr ⟨c, hc, rfl⟩)
        exact ((hinv.cvSpec q.id c.id).mp hmemcv).1
    by_cases hvis : (idAt t p.dropLast) ∈
        (markChildVisited s1 (idAt t p.dropLast) (idAt t p)).visited
    · rw [if_pos hvis]
      have hvisq : qp.id ∈ s.visited := by
        have hv : idAt t p.dropLast ∈ s1.visited := hvis
        rw [hs1v, hpid] at hv
        exact hv
      have hpidnotacc : qp.id ∉ acc := by
        intro hmem
        obtain ⟨n, hget⟩ := List.mem_iff_get.mp hmem
        have hcha := hinv.ordering n.1 n.2 p.dropLast qp hqp hget.symm q hqmem
        exact hnotacc (List.take_subset _ _ hcha)
      have hppmem : p.dropLast ∈ rest := by
        have hv := (hinv.visitedIff qp.id).mp hvisq
        rcases hv with h | h
        · exact absurd h hpidnotacc
        · rw [hsplit, List.map_cons, hnid] at h
          rcases List.mem_cons.mp h with h | h
          · exact absurd h.symm hne_ids
          · obtain ⟨pw2, hpw2mem, hpw2id⟩ := List.mem_map.mp h
            obtain ⟨qw2, hqw2⟩ := hvalidr pw2 hpw2mem
            rw [idAt_eq t pw2 qw2 hqw2] at hpw2id
            have hpe := nodeAtPath_id_inj pw2 t hnd qw2 hqw2 p.dropLast qp hqp hpw2id
            rw [← hpe]
            exact hpw2mem
      refine ⟨?_, ?_, ?_, hcalled, hcv, hcvn, hord, ?_⟩
      · intro x hx
        have hx2 : x ∈ rest := by
          have hx1 : x ∈ s1.queue ++ s1.next := hx
          rwa [hs1] at hx1
        exact hvalidr x hx2
      · show ((acc ++ [idAt t p]) ++ (s1.queue ++ s1.next).map (idAt t)).Nodup
        rw [hs1, hnid, List.append_assoc, List.singleton_append]
        exact hm
      · intro x
        show x ∈ s1.visited ↔
          x ∈ acc ++ [idAt t p] ∨ x ∈ (s1.queue ++ s1.next).map (idAt t)
        rw [hs1v, hs1, hinv.visitedIff x, hsplit, List.map_cons]
        simp only [List.mem_append, List.mem_cons, List.mem_singleton, hnid,
          List.not_mem_nil, or_false]
        tauto
      · intro pc qc hqc hnv
        have hnv2 : qc.id ∉ s.visited := by
          intro hmem
          refine hnv ?_
          show qc.id ∈ s1.visited
          rw [hs1v]
          exact hmem
        obtain ⟨pw, hpw, hpre, hlenw⟩ := hinv.reach pc qc hqc hnv2
        rw [hsplit] at hpw
        have hgoal : ∀ pw2, pw2 ∈ rest → pc <+: pw2 → pc.length < pw2.length →
            ∃ pw3, pw3 ∈ (markChildVisited s1 (idAt t p.dropLast) (idAt t p)).queue ++
              (markChildVisited s1 (idAt t p.dropLast) (idAt t p)).next ∧
              pc <+: pw3 ∧ pc.length < pw3.length := by
          intro pw2 hmem hpre2 hlen2
          refine ⟨pw2, ?_, hpre2, hlen2⟩
          show pw2 ∈ s1.queue ++ s1.next
          rw [hs1]
          exact hmem
        rcases List.mem_cons.mp hpw with hpwp | hpwr
        · subst hpwp
          have hppre : pw.dropLast <+: pw := ⟨[pw.getLast hp], hdecomp⟩
          have hdll : pw.dropLast.length = pw.length - 1 := List.length_dropLast pw
          rcases Nat.lt_or_ge pc.length pw.dropLast.length with hlt | hge
          · have hpcp : pc <+: pw.dropLast :=
              List.prefix_of_prefix_length_le hpre hppre (by omega)
            exact hgoal pw.dropLast hppmem hpcp hlt
          · have hleneq : pc.length = pw.dropLast.length := by omega
            have hpce : pc = pw.dropLast := prefix_eq_of_length hpre hppre hleneq
            rw [hpce] at hqc
            rw [hqp] at hqc
            have hqceq := Option.some.inj hqc
            rw [hqceq] at hvisq
            exact absurd hvisq hnv2
        · exact hgoal pw hpwr hpre hlenw
    · rw [if_neg hvis]
      have hvq : qp.id ∉ s.visited := by
        intro hmem
        refine hvis ?_
        show idAt t p.dropLast ∈ s1.visited
        rw [hs1v, hpid]
        exact hmem
      have hnacc : qp.id ∉ acc := by
        intro hmem
        exact hvq ((hinv.visitedIff qp.id).mpr (Or.inl hmem))
      have hnmapq : qp.id ∉ (s.queue ++ s.next).map (idAt t) := by
        intro hmem
        exact hvq ((hinv.visitedIff qp.id).mpr (Or.inr hmem))
      have hnrest : qp.id ∉ (rest.map (idAt t)) := by
        intro hmem
        refine hnmapq ?_
        rw [hsplit, List.map_cons]
        exact List.mem_cons_of_mem _ hmem
      refine ⟨?_, ?_, ?_, hcalled, hcv, hcvn, hord, ?_⟩
      · intro x hx
        have hx2 : x ∈ rest ++ [p.dropLast] := by
          have hx1 : x ∈ s1.queue ++ (s1.next ++ [p.dropLast]) := hx
          rwa [← List.append_assoc, hs1] at hx1
        rcases List.mem_append.mp hx2 with h | h
        · exact hvalidr x h
        · rw [List.mem_singleton.mp h]
          exact ⟨qp, hqp⟩
      · show ((acc ++ [idAt t p]) ++
          (s1.queue ++ (s1.next ++ [p.dropLast])).map (idAt t)).Nodup
        rw [← List.append_assoc s1.queue, hs1, List.map_append, hnid]
        have hy : ((acc ++ q.id :: rest.map (idAt t)) ++ [qp.id]).Nodup := by
          refine List.Nodup.append hm (List.nodup_singleton _) ?_
          intro b hb
          rw [List.mem_singleton]
          intro hbq
          rw [hbq] at hb
          rcases List.mem_append.mp hb with h | h
          · exact hnacc h
          · rcases List.mem_cons.mp h with h | h
            · exact hne_ids h.symm
            · exact hnrest h
        have hmap1 : (List.map (idAt t) [p.dropLast]) = [qp.id] := by
          rw [List.map_singleton, hpid]
        rw [hmap1]
        simp only [List.append_assoc, List.cons_append, List.singleton_append] at hy ⊢
        exact hy
      · intro x
        show x ∈ (idAt t p.dropLast) :: s1.visited ↔
          x ∈ acc ++ [idAt t p] ∨ x ∈ (s1.queue ++ (s1.next ++ [p.dropLast])).map (idAt t)
        rw [← List.append_assoc s1.queue, hs1, List.map_append, hs1v, hpid, hnid]
        rw [List.mem_cons, hinv.visitedIff x, hsplit, List.map_cons, hnid]
        have hmap1 : (List.map (idAt t) [p.dropLast]) = [qp.id] := by
          rw [List.map_singleton, hpid]
        rw [hmap1]
        simp only [List.mem_append, List.mem_cons, List.mem_singleton, List.not_mem_nil,
          or_false]
        tauto
      · intro pc qc hqc hnv
        have hnvc : qc.id ∉ s.visited ∧ qc.id ≠ qp.id := by
          constructor
          · intro hmem
            refine hnv ?_
            show qc.id ∈ (idAt t p.dropLast) :: s1.visited
            rw [List.mem_cons, hs1v]
            exact Or.inr hmem
          · intro heq
            refine hnv ?_
            show qc.id ∈ (idAt t p.dropLast) :: s1.visited
            rw [List.mem_cons, hpid]
            exact Or.inl heq
        obtain ⟨pw, hpw, hpre, hlenw⟩ := hinv.reach pc qc hqc hnvc.1
        rw [hsplit] at hpw
        have hgoal : ∀ pw2, pw2 ∈ rest ++ [p.dropLast] → pc <+: pw2 →
            pc.length < pw2.length →
            ∃ pw3, pw3 ∈ (markChildVisited s1 (idAt t p.dropLast) (idAt t p)).queue ++
              ((markChildVisited s1 (idAt t p.dropLast) (idAt t p)).next ++ [p.dropLast]) ∧
              pc <+: pw3 ∧ pc.length < pw3.length := by
          intro pw2 hmem hpre2 hlen2
          refine ⟨pw2, ?_, hpre2, hlen2⟩
          show pw2 ∈ s1.queue ++ (s1.next ++ [p.dropLast])
          rw [← List.append_assoc, hs1]
          exact hmem
        rcases List.mem_cons.mp hpw with hpwp | hpwr
        · subst hpwp
          have hppre : pw.dropLast <+: pw := ⟨[pw.getLast hp], hdecomp⟩
          have hdll : pw.dropLast.length = pw.length - 1 := List.length_dropLast pw
          rcases Nat.lt_or_ge pc.length pw.dropLast.length with hlt | hge
          · have hpcp : pc <+: pw.dropLast :=
              List.prefix_of_prefix_length_le hpre hppre (by omega)
            exact hgoal pw.dropLast (List.mem_append_right _ (List.mem_singleton.mpr rfl))
              hpcp hlt
          · have hleneq : pc.length = pw.dropLast.length := by omega
            have hpce : pc = pw.dropLast := prefix_eq_of_length hpre hppre hleneq
            rw [hpce, hqp] at hqc
            have hqceq := Option.some.inj hqc
            exact absurd (congrArg Node.id hqceq).symm hnvc.2
        · exact hgoal pw (List.mem_append_left _ hpwr) hpre hlenw

/-! ### Progress: a deepest queued node is ready -/

theorem exists_max_length : ∀ (C : List (List Nat)) (a : List Nat),
    ∃ p, p ∈ a :: C ∧ ∀ p2 ∈ a :: C, p2.length ≤ p.length := by
  intro C
  induction C with
  | nil =>
    intro a
    refine ⟨a, List.mem_singleton.mpr rfl, ?_⟩
    intro p2 hp2
    rw [List.mem_singleton.mp hp2]
  | cons b m ih =>
    intro a
    obtain ⟨p, hpmem, hpmax⟩ := ih b
    by_cases hc : p.length ≤ a.length
    · refine ⟨a, List.mem_cons_self _ _, ?_⟩
      intro p2 hp2
      rcases List.mem_cons.mp hp2 with h | h
      · rw [h]
      · exact le_trans (hpmax p2 h) hc
    · refine ⟨p, List.mem_cons_of_mem _ hpmem, ?_⟩
      intro p2 hp2
      rcases List.mem_cons.mp hp2 with h | h
      · rw [h]
        omega
      · exact hpmax p2 h

theorem exists_ready (t : Node) (hnd : (allIds t).Nodup) (s : LeafIterState)
    (acc : List Nat) (hinv : LeafInv t s acc) (a : List Nat) (C0 : List (List Nat))
    (hC : s.queue ++ s.next = a :: C0) :
    ∃ p ∈ s.queue ++ s.next,
      numChildrenAt t p = (s.childrenVisited (idAt t p)).length := by
  obtain ⟨p, hpmem0, hpmax0⟩ := exists_max_length C0 a
  have hpmem : p ∈ s.queue ++ s.next := by
    rw [hC]
    exact hpmem0
  have hpmax : ∀ p2 ∈ s.queue ++ s.next, p2.length ≤ p.length := by
    intro p2 hp2
    rw [hC] at hp2
    exact hpmax0 p2 hp2
  obtain ⟨q, hq⟩ := hinv.validQ p hpmem
  refine ⟨p, hpmem, ?_⟩
  rw [numChildrenAt_eq t p q hq, idAt_eq t p q hq]
  have hallchild : ∀ c ∈ q.childrenList, c.id ∈ acc := by
    intro c hc
    obtain ⟨n, hgetc⟩ := List.mem_iff_get.mp hc
    have hget? : q.childrenList.get? n.1 = some c :=
      List.get?_eq_some.mpr ⟨n.2, hgetc⟩
    have hcpath : nodeAtPath t (p ++ [n.1]) = some c :=
      nodeAtPath_of_child t p q hq n.1 c hget?
    by_contra hnacc
    by_cases hv : c.id ∈ s.visited
    · rcases (hinv.visitedIff c.id).mp hv with h | h
      · exact hnacc h
      · obtain ⟨pw, hpwmem, hpwid⟩ := List.mem_map.mp h
        obtain ⟨qw, hqw⟩ := hinv.validQ pw hpwmem
        rw [idAt_eq t pw qw hqw] at hpwid
        have hpe := nodeAtPath_id_inj pw t hnd qw hqw (p ++ [n.1]) c hcpath hpwid
        have hmax := hpmax pw hpwmem
        rw [hpe, List.length_append, List.length_singleton] at hmax
        omega
    · obtain ⟨pw, hpwmem, hpre, hlenw⟩ := hinv.reach (p ++ [n.1]) c hcpath hv
      have hmax := hpmax pw hpwmem
      rw [List.length_append, List.length_singleton] at hlenw
      omega
  have hndq := nodup_allIds_at p t q hnd hq
  have hsub1 : ∀ x ∈ s.childrenVisited q.id, x ∈ q.childrenList.map Node.id := by
    intro x hx
    obtain ⟨hxa, p2, q2, i2, c2, hp2, hq2, hc2, hcid2⟩ := (hinv.cvSpec q.id x).mp hx
    obtain ⟨hp2e, hq2e⟩ := nodeAtPath_node_inj t hnd p2 p q2 q hp2 hq hq2
    rw [hq2e] at hc2
    rw [← hcid2]
    exact List.mem_map.mpr ⟨c2, get?_some_mem hc2, rfl⟩
  have hsub2 : ∀ x ∈ q.childrenList.map Node.id, x ∈ s.childrenVisited q.id := by
    intro x hx
    obtain ⟨c, hc, hcid⟩ := List.mem_map.mp hx
    obtain ⟨n, hgetc⟩ := List.mem_iff_get.mp hc
    have hget? : q.childrenList.get? n.1 = some c :=
      List.get?_eq_some.mpr ⟨n.2, hgetc⟩
    refine (hinv.cvSpec q.id x).mpr ⟨?_, p, q, n.1, c, hq, rfl, hget?, hcid⟩
    rw [← hcid]
    exact hallchild c hc
  have hperm : (s.childrenVisited q.id).Perm (q.childrenList.map Node.id) :=
    (List.perm_ext_iff_of_nodup (hinv.cvNodup q.id) (childIds_nodup_at q hndq)).mpr
      (fun x => ⟨hsub1 x, hsub2 x⟩)
  rw [num_children_eq_length, ← List.length_map q.childrenList Node.id]
  rw [hperm.length_eq]

/-! ### The termination measure -/

theorem leafInv_length_le (t : Node) (s : LeafIterState) (acc : List Nat)
    (hinv : LeafInv t s acc) :
    acc.length + (s.queue ++ s.next).length ≤ treeSize t := by
  have hsub : ∀ x ∈ acc ++ (s.queue ++ s.next).map (idAt t), x ∈ allIds t := by
    intro x hx
    rcases List.mem_append.mp hx with h | h
    · obtain ⟨p, q, hp, hid⟩ := hinv.calledTree x h
      rw [← hid]
      exact id_mem_allIds_of_nodeAtPath t p q hp
    · obtain ⟨pw, hpwmem, hpwid⟩ := List.mem_map.mp h
      obtain ⟨qw, hqw⟩ := hinv.validQ pw hpwmem
      rw [← hpwid, idAt_eq t pw qw hqw]
      exact id_mem_allIds_of_nodeAtPath t pw qw hqw
  have hle := (List.subperm_of_subset hinv.nodupIds hsub).length_le
  rw [List.length_append, List.length_map, treeSize_eq_length.1 t] at hle
  exact hle

theorem findIdx_append_left_of_exists {α : Type} (l r : List α) (pred : α → Bool)
    (h : ∃ x ∈ l, pred x = true) :
    (l ++ r).findIdx pred = l.findIdx pred := by
  induction l with
  | nil =>
    obtain ⟨x, hx, _⟩ := h
    cases hx
  | cons a m ih =>
    rw [List.cons_append, List.findIdx_cons, List.findIdx_cons]
    cases hpa : pred a with
    | true => rfl
    | false =>
      simp only [cond_false]
      obtain ⟨x, hx, hpx⟩ := h
      rcases List.mem_cons.mp hx with he | hm2
      · rw [he] at hpx
        rw [hpx] at hpa
        cases hpa
      · rw [ih ⟨x, hm2, hpx⟩]

/-! ### Converse path existence -/

theorem nodeAtPath_of_mem_treeNodes :
    (∀ t : Node, ∀ q ∈ treeNodes t, ∃ p, nodeAtPath t p = some q) ∧
    (∀ cs : List Node, ∀ q ∈ treeNodesList cs,
      ∃ i rest c, cs.get? i = some c ∧ nodeAtPath c rest = some q) := by
  refine nodeListInduction
    (P := fun t => ∀ q ∈ treeNodes t, ∃ p, nodeAtPath t p = some q)
    (Q := fun cs => ∀ q ∈ treeNodesList cs,
      ∃ i rest c, cs.get? i = some c ∧ nodeAtPath c rest = some q) ?_ ?_ ?_ ?_
  · intro i d pos hh _ q hq
    rw [treeNodes] at hq
    rw [List.mem_singleton.mp hq]
    exact ⟨[], rfl⟩
  · intro i d cs pos hh ih q hq
    rw [treeNodes] at hq
    rcases List.mem_cons.mp hq with h | h
    · rw [h]
      exact ⟨[], rfl⟩
    · obtain ⟨j, rest, c, hget, hpath⟩ := ih q h
      refine ⟨j :: rest, ?_⟩
      rw [nodeAtPath_cons]
      have hcl : (Node.mk i d (some cs) pos hh).childrenList = cs := rfl
      rw [hcl, hget, Option.some_bind]
      exact hpath
  · intro q hq
    rw [treeNodesList] at hq
    cases hq
  · intro c cs ihc ihcs q hq
    rw [treeNodesList] at hq
    rcases List.mem_append.mp hq with h | h
    · obtain ⟨p, hp⟩ := ihc q h
      exact ⟨0, p, c, rfl, hp⟩
    · obtain ⟨j, rest, cx, hget, hpath⟩ := ihcs q h
      refine ⟨j + 1, rest, cx, ?_, hpath⟩
      rw [List.get?]
      exact hget


theorem forEachGo_empty (t : Node) (fuel : Nat) (s : LeafIterState) (acc : List Nat)
    (h : s.queue ++ s.next = []) :
    forEachGo t (fuel + 1) s acc = some acc := by
  rw [forEachGo, popNext_none s h]

theorem forEachGo_succ (t : Node) (fuel : Nat) (s : LeafIterState) (acc : List Nat)
    (p : List Nat) (s1 : LeafIterState) (hpop : popNext s = some (p, s1)) :
    forEachGo t (fuel + 1) s acc =
      if numChildrenAt t p ≠ (s1.childrenVisited (idAt t p)).length then
        forEachGo t fuel (deferNode s1 p) acc
      else if p.isEmpty then forEachGo t fuel s1 (acc ++ [idAt t p])
      else forEachGo t fuel
        (if (idAt t p.dropLast) ∈
            (markChildVisited s1 (idAt t p.dropLast) (idAt t p)).visited
         then markChildVisited s1 (idAt t p.dropLast) (idAt t p)
         else { markChildVisited s1 (idAt t p.dropLast) (idAt t p) with
            visited := (idAt t p.dropLast) ::
              (markChildVisited s1 (idAt t p.dropLast) (idAt t p)).visited,
            next := (markChildVisited s1 (idAt t p.dropLast) (idAt t p)).next ++
              [p.dropLast] })
        (acc ++ [idAt t p]) := by
  rw [forEachGo, hpop]

theorem measure_defer_lt (t : Node) (hnd : (allIds t).Nodup) (s s1 : LeafIterState)
    (acc : List Nat) (p : List Nat) (rest : List (List Nat))
    (hinv : LeafInv t s acc)
    (hsplit : s.queue ++ s.next = p :: rest)
    (hs1 : s1.queue ++ s1.next = rest) (hs1cv : s1.childrenVisited = s.childrenVisited)
    (hnotready : ¬ numChildrenAt t p = (s1.childrenVisited (idAt t p)).length) :
    leafMeasure t (deferNode s1 p) acc < leafMeasure t s acc := by
  have hpredeq : readyB t (deferNode s1 p) = readyB t s := by
    funext x
    rw [readyB, readyB, deferNode_cv, hs1cv]
  rw [leafMeasure, leafMeasure, deferNode_queues, hs1, hpredeq, hsplit]
  have hhead : readyB t s p = false := by
    rw [readyB, beq_eq_false_iff_ne]
    rw [hs1cv] at hnotready
    exact hnotready
  obtain ⟨pr, hprmem, hprready⟩ := exists_ready t hnd s acc hinv p rest hsplit
  have hprB : readyB t s pr = true := by
    rw [readyB, beq_iff_eq]
    exact hprready
  have hprrest : pr ∈ rest := by
    rw [hsplit] at hprmem
    rcases List.mem_cons.mp hprmem with h | h
    · exfalso
      rw [h, hhead] at hprB
      cases hprB
    · exact h
  rw [findIdx_append_left_of_exists rest [p] (readyB t s) ⟨pr, hprrest, hprB⟩]
  rw [List.findIdx_cons, hhead]
  simp only [cond_false]
  omega

theorem measure_call_lt (t : Node) (sOld sNew : LeafIterState) (acc : List Nat) (x : Nat)
    (hlen : acc.length < treeSize t)
    (hqlen : (sNew.queue ++ sNew.next).length ≤ treeSize t) :
    leafMeasure t sNew (acc ++ [x]) < leafMeasure t sOld acc := by
  rw [leafMeasure, leafMeasure, List.length_append, List.length_singleton]
  have hidx : (sNew.queue ++ sNew.next).findIdx (readyB t sNew) ≤ treeSize t :=
    le_trans (List.findIdx_le_length _) hqlen
  have hk : treeSize t - acc.length = (treeSize t - (acc.length + 1)) + 1 := by omega
  rw [hk, Nat.succ_mul]
  generalize (treeSize t - (acc.length + 1)) * (treeSize t + 1) = A
  omega

/-! ### The loop runs to completion -/

theorem forEachGo_total (t : Node) (hnd : (allIds t).Nodup) :
    ∀ fuel s acc, LeafInv t s acc → leafMeasure t s acc < fuel →
    ∃ V sF, forEachGo t fuel s acc = some V ∧ LeafInv t sF V ∧
      sF.queue ++ sF.next = [] := by
  intro fuel
  induction fuel with
  | zero =>
    intro s acc _ hm
    omega
  | succ fuel ih =>
    intro s acc hinv hm
    cases hC : s.queue ++ s.next with
    | nil =>
      rw [forEachGo_empty t fuel s acc hC]
      exact ⟨acc, s, rfl, hinv, hC⟩
    | cons p rest =>
      obtain ⟨s1, hpop, hs1, hs1v, hs1cv⟩ := popNext_some s p rest hC
      rw [forEachGo_succ t fuel s acc p s1 hpop]
      by_cases hready : numChildrenAt t p = (s1.childrenVisited (idAt t p)).length
      · rw [if_neg (not_not_intro hready)]
        by_cases hpnil : p = []
        · subst hpnil
          simp only [List.isEmpty_nil, if_true]
          have hinvN := leafInv_call_root t hnd s s1 acc rest hinv hC hs1 hs1v hs1cv hready
          have hlenN := leafInv_length_le t s1 (acc ++ [idAt t []]) hinvN
          rw [List.length_append, List.length_singleton] at hlenN
          have hmlt := measure_call_lt t s s1 acc (idAt t []) (by omega) (by omega)
          exact ih s1 (acc ++ [idAt t []]) hinvN (by omega)
        · rw [if_neg (by intro hie; exact hpnil (List.isEmpty_iff.mp hie))]
          have hinvN := leafInv_call_child t hnd s s1 acc p rest hinv hpnil hC hs1 hs1v
            hs1cv hready
          have hlenN := leafInv_length_le t _ (acc ++ [idAt t p]) hinvN
          rw [List.length_append, List.length_singleton] at hlenN
          have hmlt := measure_call_lt t s
            (if (idAt t p.dropLast) ∈
                (markChildVisited s1 (idAt t p.dropLast) (idAt t p)).visited
             then markChildVisited s1 (idAt t p.dropLast) (idAt t p)
             else { markChildVisited s1 (idAt t p.dropLast) (idAt t p) with
                visited := (idAt t p.dropLast) ::
                  (markChildVisited s1 (idAt t p.dropLast) (idAt t p)).visited,
                next := (markChildVisited s1 (idAt t p.dropLast) (idAt t p)).next ++
                  [p.dropLast] })
            acc (idAt t p) (by omega) (by omega)
          exact ih _ (acc ++ [idAt t p]) hinvN (by omega)
      · rw [if_pos hready]
        have hinvN := leafInv_defer t s s1 acc p rest hinv hC hs1 hs1v hs1cv
        have hmlt := measure_defer_lt t hnd s s1 acc p rest hinv hC hs1 hs1cv hready
        exact ih (deferNode s1 p) acc hinvN (by omega)


/-- C8: for every finite tree with distinct node ids and no degenerate
empty children vec, LeafIter seeded with the complete leaf set calls
the visitor exactly once per node (the visit sequence is a permutation
of the node ids), and never on a node before all of its direct
children. -/
theorem leaf_iter_visits_each_node_once_bottom_up (t : Node)
    (hnd : (allIds t).Nodup)
    (hne : ∀ z ∈ treeNodes t, noEmptyChildrenB z = true) :
    ∃ V, LeafIter.for_each t ((treeSize t + 1) * (treeSize t + 1)) = some V ∧
      V.Perm (allIds t) ∧
      (∀ i (h : i < V.length) p q, nodeAtPath t p = some q → q.id = V.get ⟨i, h⟩ →
        ∀ c ∈ q.childrenList, c.id ∈ V.take i) := by
  have hinv0 := leafInv_init t hnd hne
  have hm0 : leafMeasure t (LeafIter.new t (leafPaths t)) [] <
      (treeSize t + 1) * (treeSize t + 1) := by
    have hlen := leafInv_length_le t (LeafIter.new t (leafPaths t)) [] hinv0
    rw [List.length_nil] at hlen
    have hidx : ((LeafIter.new t (leafPaths t)).queue ++
        (LeafIter.new t (leafPaths t)).next).findIdx
          (readyB t (LeafIter.new t (leafPaths t))) ≤
        ((LeafIter.new t (leafPaths t)).queue ++
          (LeafIter.new t (leafPaths t)).next).length :=
      List.findIdx_le_length _
    rw [leafMeasure, List.length_nil, Nat.sub_zero]
    have hexp : (treeSize t + 1) * (treeSize t + 1) =
        treeSize t * (treeSize t + 1) + (treeSize t + 1) := by ring
    rw [hexp]
    omega
  obtain ⟨V, sF, hrun, hinvF, hCF⟩ := forEachGo_total t hnd
    ((treeSize t + 1) * (treeSize t + 1)) (LeafIter.new t (leafPaths t)) [] hinv0 hm0
  refine ⟨V, ?_, ?_, ?_⟩
  · rw [LeafIter.for_each]
    exact hrun
  · have hnodupV : V.Nodup := by
      have hni := hinvF.nodupIds
      rw [hCF] at hni
      simpa using hni
    refine (List.perm_ext_iff_of_nodup hnodupV hnd).mpr ?_
    intro x
    constructor
    · intro hx
      obtain ⟨p, q, hp, hid⟩ := hinvF.calledTree x hx
      rw [← hid]
      exact id_mem_allIds_of_nodeAtPath t p q hp
    · intro hx
      rw [allIds_eq_map.1] at hx
      obtain ⟨q, hq, hid⟩ := List.mem_map.mp hx
      obtain ⟨p, hp⟩ := nodeAtPath_of_mem_treeNodes.1 t q hq
      by_contra hnot
      have hnvis : q.id ∉ sF.visited := by
        intro hmem
        rcases (hinvF.visitedIff q.id).mp hmem with h | h
        · rw [hid] at h
          exact hnot h
        · rw [hCF] at h
          cases h
      obtain ⟨pw, hpw, _, _⟩ := hinvF.reach p q hp hnvis
      rw [hCF] at hpw
      cases hpw
  · intro i h p q hp hid c hc
    exact hinvF.ordering i h p q hp hid c hc

/-- Witness for C8 at a concrete input: a root with two leaf children
satisfies the hypotheses and hence the traversal property. -/
theorem leaf_iter_visits_each_node_once_bottom_up_witness :
    ((allIds leafWitnessTree).Nodup ∧
      (∀ z ∈ treeNodes leafWitnessTree, noEmptyChildrenB z = true)) ∧
    (∃ V, LeafIter.for_each leafWitnessTree
        ((treeSize leafWitnessTree + 1) * (treeSize leafWitnessTree + 1)) = some V ∧
      V.Perm (allIds leafWitnessTree) ∧
      (∀ i (h : i < V.length) p q, nodeAtPath leafWitnessTree p = some q →
        q.id = V.get ⟨i, h⟩ →
        ∀ c ∈ q.childrenList, c.id ∈ V.take i)) :=
  ⟨⟨by decide, by decide⟩,
    leaf_iter_visits_each_node_once_bottom_up leafWitnessTree (by decide) (by decide)⟩

end Arbutus
